import Mathlib

/-!
# CPU scheduling simulator: embedding of `simulation.cpp`

The C++ `int` fields of `Process` are modelled as unbounded `Int` (signed
overflow is undefined behaviour in C++, so the model describes the runs that
stay inside the machine range).  A second family of definitions, with names
ending in `32`, wraps every `int` addition and subtraction to 32 bits, as the
compiled program does, and agrees with the first as long as the exact values
stay in range.  `std::vector<Process>` is a `List Process`,
vector indices and the `completed` counter are `Nat`, the index variable
`idx` with its `-1` sentinel is an `Option Nat`, and every `while` loop is a
step function iterated under a fuel bound.  The floating point divisions of
`calculateMetrics` and its printing are not part of the model; its integer
operands are.
-/

namespace CPUScheduling

/-- The record `struct Process` (lines 6-15). -/
structure Process where
  id : Int
  arrivalTime : Int
  burstTime : Int
  priority : Int
  waitingTime : Int
  turnaroundTime : Int
  completionTime : Int
  remainingTime : Int
  deriving DecidableEq

/-- The constant `INT16_MAX` of `<cstdint>`. -/
def INT16_MAX : Int := 32767

/-- The assignment `processes[idx].field = ...`: rewrite the element at
position `idx`, leaving the list alone when `idx` is out of range. -/
def updateAt (f : Process → Process) : List Process → Nat → List Process
  | [], _ => []
  | p :: ps, 0 => f p :: ps
  | p :: ps, i + 1 => p :: updateAt f ps i

/-- A `while (!done) body` loop: `none` when the fuel runs out before the
loop condition turns false. -/
def whileLoop {σ : Type} (done : σ → Bool) (body : σ → σ) : Nat → σ → Option σ
  | 0, s => if done s then some s else none
  | fuel + 1, s => if done s then some s else whileLoop done body fuel (body s)

/-- The state after `k` evaluations of a loop body (the loop condition is
not consulted). -/
def iterate {σ : Type} (body : σ → σ) : Nat → σ → σ
  | 0, s => s
  | k + 1, s => iterate body k (body s)

/-! ## calculateMetrics (lines 18-48) -/

/-- The integer results of `calculateMetrics`: the updated records and the
four integers the printed averages and ratios are computed from. -/
structure Metrics where
  processes : List Process
  totalTurnaroundTime : Int
  totalWaitingTime : Int
  totalBurstTime : Int
  totalTimeSpan : Int
  deriving DecidableEq

/-- The body of the loop of lines 23-29 on one record. -/
def metricsOf (p : Process) : Process :=
  let p1 := { p with turnaroundTime := p.completionTime - p.arrivalTime }
  { p1 with waitingTime := p1.turnaroundTime - p1.burstTime }

/-- The loop of lines 23-29: the records are rewritten in order and the three
totals accumulated. -/
def metricsLoop : List Process → Int → Int → Int → List Process × Int × Int × Int
  | [], tt, tw, tb => ([], tt, tw, tb)
  | p :: ps, tt, tw, tb =>
    let q := metricsOf p
    let r := metricsLoop ps (tt + q.turnaroundTime) (tw + q.waitingTime) (tb + q.burstTime)
    (q :: r.1, r.2)

/-- The function `calculateMetrics` up to line 32.  `processes.back()` and
`processes.front()` are undefined on an empty vector: the model returns
`none` there. -/
def calculateMetrics (processes : List Process) : Option Metrics :=
  let r := metricsLoop processes 0 0 0
  match r.1.getLast?, r.1.head? with
  | some last, some first =>
    some { processes := r.1
           totalTurnaroundTime := r.2.1
           totalWaitingTime := r.2.2.1
           totalBurstTime := r.2.2.2
           totalTimeSpan := last.completionTime - first.arrivalTime }
  | _, _ => none

/-! ## fcfs (lines 49-58) -/

/-- The loop of `fcfs` from clock value `time` on. -/
def fcfsLoop : List Process → Int → List Process
  | [], _ => []
  | p :: ps, time =>
    let time1 := if time < p.arrivalTime then p.arrivalTime else time
    let time2 := time1 + p.burstTime
    { p with completionTime := time2 } :: fcfsLoop ps time2

/-- The function `fcfs`. -/
def fcfs (processes : List Process) : List Process :=
  fcfsLoop processes 0

/-! ## The selection scan shared by sjf, srtf and priorityScheduling -/

/-- The `for` loop of lines 67-72, 91-96 and 118-123, from index `i` on, over
the records not yet visited.  `ok` is the conjunction of the first two tests
of the `if`, `key` the field compared against the running minimum `best`
(`minBurst`, `minRemaining`, `highestPriority`), and `idx` the running index. -/
def scanMin (ok : Process → Bool) (key : Process → Int) :
    List Process → Nat → Option Nat → Int → Option Nat
  | [], _, idx, _ => idx
  | p :: ps, i, idx, best =>
    if ok p && decide (key p < best) then scanMin ok key ps (i + 1) (some i) (key p)
    else scanMin ok key ps (i + 1) idx best

/-- The variables of the three `while` loops. -/
structure SchedState where
  processes : List Process
  time : Int
  completed : Nat
  deriving DecidableEq

/-- The loop condition `completed != processes.size()`, negated. -/
def schedDone (s : SchedState) : Bool :=
  s.completed == s.processes.length

/-- The state before the first iteration: `time = 0, completed = 0`. -/
def schedInit (processes : List Process) : SchedState :=
  { processes := processes, time := 0, completed := 0 }

/-! ## sjf (lines 61-82) -/

/-- The scan of lines 64-72. -/
def sjfSelect (s : SchedState) : Option Nat :=
  scanMin (fun p => decide (p.arrivalTime ≤ s.time) && decide (p.completionTime = 0))
    (fun p => p.burstTime) s.processes 0 none INT16_MAX

/-- One iteration of the `while` loop of `sjf`. -/
def sjfStep (s : SchedState) : SchedState :=
  match sjfSelect s with
  | some idx =>
    match s.processes[idx]? with
    | some p =>
      let time1 := s.time + p.burstTime
      { processes := updateAt (fun q => { q with completionTime := time1 }) s.processes idx
        time := time1
        completed := s.completed + 1 }
    | none => s
  | none => { s with time := s.time + 1 }

/-- The function `sjf`, run for at most `fuel` iterations. -/
def sjf (fuel : Nat) (processes : List Process) : Option (List Process) :=
  (whileLoop schedDone sjfStep fuel (schedInit processes)).map (fun s => s.processes)

/-! ## srtf (lines 85-109) -/

/-- The scan of lines 88-96. -/
def srtfSelect (s : SchedState) : Option Nat :=
  scanMin (fun p => decide (p.arrivalTime ≤ s.time) && decide (p.remainingTime > 0))
    (fun p => p.remainingTime) s.processes 0 none INT16_MAX

/-- One iteration of the `while` loop of `srtf`. -/
def srtfStep (s : SchedState) : SchedState :=
  match srtfSelect s with
  | some idx =>
    match s.processes[idx]? with
    | some p =>
      let time1 := s.time + 1
      if p.remainingTime - 1 = 0 then
        { processes := updateAt (fun q => { q with remainingTime := q.remainingTime - 1,
                                                   completionTime := time1 }) s.processes idx
          time := time1
          completed := s.completed + 1 }
      else
        { processes := updateAt (fun q => { q with remainingTime := q.remainingTime - 1 })
            s.processes idx
          time := time1
          completed := s.completed }
    | none => s
  | none => { s with time := s.time + 1 }

/-- The function `srtf`, run for at most `fuel` iterations. -/
def srtf (fuel : Nat) (processes : List Process) : Option (List Process) :=
  (whileLoop schedDone srtfStep fuel (schedInit processes)).map (fun s => s.processes)

/-! ## priorityScheduling (lines 112-133) -/

/-- The scan of lines 115-123. -/
def prioritySelect (s : SchedState) : Option Nat :=
  scanMin (fun p => decide (p.arrivalTime ≤ s.time) && decide (p.completionTime = 0))
    (fun p => p.priority) s.processes 0 none INT16_MAX

/-- One iteration of the `while` loop of `priorityScheduling`. -/
def priorityStep (s : SchedState) : SchedState :=
  match prioritySelect s with
  | some idx =>
    match s.processes[idx]? with
    | some p =>
      let time1 := s.time + p.burstTime
      { processes := updateAt (fun q => { q with completionTime := time1 }) s.processes idx
        time := time1
        completed := s.completed + 1 }
    | none => s
  | none => { s with time := s.time + 1 }

/-- The function `priorityScheduling`, run for at most `fuel` iterations. -/
def priorityScheduling (fuel : Nat) (processes : List Process) : Option (List Process) :=
  (whileLoop schedDone priorityStep fuel (schedInit processes)).map (fun s => s.processes)

/-! ## roundRobin (lines 136-166) -/

/-- The variables of `roundRobin`. -/
structure RRState where
  processes : List Process
  readyQueue : List Nat
  time : Int
  completed : Nat
  deriving DecidableEq

/-- The admission scan of lines 152-156 from index `i` on: `push_back` every
index that is not `idx`, has arrived, is unfinished and is not in the queue. -/
def rrAdmit (idx : Nat) (time : Int) : List Process → Nat → List Nat → List Nat
  | [], _, queue => queue
  | p :: ps, i, queue =>
    if i ≠ idx ∧ p.arrivalTime ≤ time ∧ p.completionTime = 0 ∧ i ∉ queue then
      rrAdmit idx time ps (i + 1) (queue ++ [i])
    else rrAdmit idx time ps (i + 1) queue

/-- One iteration of the `while` loop of `roundRobin`; on an empty queue the
loop has ended and the state stays. -/
def rrStep (quantum : Int) (s : RRState) : RRState :=
  match s.readyQueue with
  | [] => s
  | idx :: rest =>
    match s.processes[idx]? with
    | some p =>
      if p.remainingTime > quantum then
        let time1 := s.time + quantum
        let procs1 := updateAt (fun q => { q with remainingTime := q.remainingTime - quantum })
          s.processes idx
        { processes := procs1
          readyQueue := rrAdmit idx time1 procs1 0 rest ++ [idx]
          time := time1
          completed := s.completed }
      else
        let time1 := s.time + p.remainingTime
        { processes := updateAt (fun q => { q with remainingTime := 0, completionTime := time1 })
            s.processes idx
          readyQueue := rest
          time := time1
          completed := s.completed + 1 }
    | none => { s with readyQueue := rest }

/-- The loop condition `!readyQueue.empty()`, negated. -/
def rrDone (s : RRState) : Bool :=
  s.readyQueue.isEmpty

/-- The state before the first iteration: every index enqueued in order
(lines 140-142), `time = 0, completed = 0`. -/
def rrInit (processes : List Process) : RRState :=
  { processes := processes, readyQueue := List.range processes.length, time := 0, completed := 0 }

/-- The final state of `roundRobin`, run for at most `fuel` iterations. -/
def roundRobinRun (fuel : Nat) (processes : List Process) (quantum : Int) : Option RRState :=
  whileLoop rrDone (rrStep quantum) fuel (rrInit processes)

/-- The function `roundRobin`, run for at most `fuel` iterations. -/
def roundRobin (fuel : Nat) (processes : List Process) (quantum : Int) : Option (List Process) :=
  (roundRobinRun fuel processes quantum).map (fun s => s.processes)

/-! ## Input conditions -/

/-- A record as the driver creates it (lines 173-179) from valid input:
positive burst time, non-negative arrival time, `completionTime = 0` and
`remainingTime = burstTime`. -/
def Fresh (p : Process) : Prop :=
  0 < p.burstTime ∧ 0 ≤ p.arrivalTime ∧ p.completionTime = 0 ∧ p.remainingTime = p.burstTime

instance (p : Process) : Decidable (Fresh p) := by
  unfold Fresh; infer_instance

/-- A process with the given id, arrival time, burst time and priority, as
`main` builds it. -/
def mkProcess (id arrival burst prio : Int) : Process :=
  { id := id, arrivalTime := arrival, burstTime := burst, priority := prio,
    waitingTime := 0, turnaroundTime := 0, completionTime := 0, remainingTime := burst }

/-- The clock value a pass over the records holds when it reaches position
`i`, read off the list `result` it produces: `start` at the first position,
the completion time written at position `i - 1` after it. -/
def clockBefore (result : List Process) (start : Int) : Nat → Int
  | 0 => start
  | j + 1 => ((result[j]?).map (fun q => q.completionTime)).getD 0

/-- The indices `sjf` selects, in the order it selects them, over at most
`fuel` iterations (an idle iteration selects nothing). -/
def sjfOrder : Nat → SchedState → List Nat
  | 0, _ => []
  | fuel + 1, s =>
    if schedDone s then []
    else match sjfSelect s with
      | some idx => idx :: sjfOrder fuel (sjfStep s)
      | none => sjfOrder fuel (sjfStep s)

/-- The first example of the specification: P1(0,5), P2(1,3), P3(2,8). -/
def exampleThree : List Process :=
  [mkProcess 1 0 5 0, mkProcess 2 1 3 0, mkProcess 3 2 8 0]

/-- The second example of the specification: P1(0,8), P2(1,4), P3(2,9), P4(3,5). -/
def exampleFour : List Process :=
  [mkProcess 1 0 8 0, mkProcess 2 1 4 0, mkProcess 3 2 9 0, mkProcess 4 3 5 0]

/-- The loop invariant of `sjf` and `priorityScheduling`: the clock is not
negative, `completed` counts the records with a completion time, and every
record with a completion time finished no earlier than arrival plus burst. -/
def NonPreInv (s : SchedState) : Prop :=
  0 ≤ s.time ∧
  s.completed = s.processes.countP (fun p => decide (p.completionTime ≠ 0)) ∧
  ∀ p ∈ s.processes, 0 < p.burstTime ∧ 0 ≤ p.arrivalTime ∧
    (p.completionTime = 0 ∨ p.arrivalTime + p.burstTime ≤ p.completionTime)

/-- The loop invariant of `srtf`: `completed` counts the records with no
remaining time, the remaining time stays between `0` and the burst time, the
units already executed fit between arrival and the clock, and a record with
no remaining time finished no earlier than arrival plus burst. -/
def SrtfInv (s : SchedState) : Prop :=
  0 ≤ s.time ∧
  s.completed = s.processes.countP (fun p => decide (p.remainingTime = 0)) ∧
  ∀ p ∈ s.processes, 0 < p.burstTime ∧ 0 ≤ p.arrivalTime ∧
    0 ≤ p.remainingTime ∧ p.remainingTime ≤ p.burstTime ∧
    (p.remainingTime < p.burstTime →
      p.arrivalTime + (p.burstTime - p.remainingTime) ≤ s.time) ∧
    (p.remainingTime = 0 → p.arrivalTime + p.burstTime ≤ p.completionTime)

/-- A single process that arrives at time 5 with burst time 1. -/
def lateArrival : List Process :=
  [mkProcess 1 5 1 0]

/-- A single process with arrival time 0 whose burst time and priority are
both `INT16_MAX`. -/
def longJob : List Process :=
  [mkProcess 1 0 32767 32767]

/-- The loop invariant of `roundRobin`: the clock is not negative, the queue
holds each index at most once and only indices of the vector, a queued record
has remaining time left, and a record that is not queued has no remaining
time and a positive completion time. -/
def RRInv (s : RRState) : Prop :=
  0 ≤ s.time ∧ s.readyQueue.Nodup ∧ (∀ i ∈ s.readyQueue, i < s.processes.length) ∧
  ∀ (i : Nat) (p : Process), s.processes[i]? = some p →
    (i ∈ s.readyQueue → 0 < p.remainingTime) ∧
    (i ∉ s.readyQueue → p.remainingTime = 0 ∧ 0 < p.completionTime)

/-- The sum of the remaining times, the quantity every `roundRobin`
iteration decreases. -/
def remainingWork (ps : List Process) : Nat :=
  (ps.map (fun p => p.remainingTime.toNat)).sum

/-- The record `q` is the record `p` up to its completion time. -/
def OnlyCompletion (p q : Process) : Prop :=
  q = { p with completionTime := q.completionTime }

/-- The record `q` is the record `p` up to its completion time and its
remaining time. -/
def OnlyCompletionRemaining (p q : Process) : Prop :=
  q = { p with completionTime := q.completionTime, remainingTime := q.remainingTime }

instance (p q : Process) : Decidable (OnlyCompletion p q) := by
  unfold OnlyCompletion; infer_instance

instance (p q : Process) : Decidable (OnlyCompletionRemaining p q) := by
  unfold OnlyCompletionRemaining; infer_instance

/-- The sum of the burst times (`totalBurstTime` of `calculateMetrics`). -/
def totalBurst (ps : List Process) : Int :=
  (ps.map (fun p => p.burstTime)).sum

/-- Two fresh valid processes of which the first in input order arrives at
time 5, when the second, arrived at 0, has just finished its burst of 5. -/
def earlyLast : List Process :=
  [mkProcess 1 5 3 0, mkProcess 2 0 5 0]

/-- Two fresh valid processes of which the first in input order arrives at
time 3 and the second at 0, with bursts 1 and 2. -/
def earlyLastShort : List Process :=
  [mkProcess 1 3 1 0, mkProcess 2 0 2 0]

/-- The second example with every priority equal to the burst time. -/
def exampleFourKeyed : List Process :=
  [mkProcess 1 0 8 8, mkProcess 2 1 4 4, mkProcess 3 2 9 9, mkProcess 4 3 5 5]

/-- The slices `roundRobin` runs over at most `fuel` iterations: for each
iteration the index dequeued, the clock before it and the clock after it. -/
def rrSlices (quantum : Int) : Nat → RRState → List (Nat × Int × Int)
  | 0, _ => []
  | fuel + 1, s =>
    match s.readyQueue with
    | [] => []
    | idx :: _ => (idx, s.time, (rrStep quantum s).time) :: rrSlices quantum fuel (rrStep quantum s)

/-- The round-robin example of the specification: P1(0,5), P2(1,3). -/
def exampleTwo : List Process :=
  [mkProcess 1 0 5 0, mkProcess 2 1 3 0]

/-! ## fcfs as a loop over positions -/

/-- The variables of the range-`for` loop of `fcfs` (lines 50-57): the
vector, the clock and the position the loop stands at. -/
structure FcfsState where
  processes : List Process
  time : Int
  pos : Nat
  deriving DecidableEq

/-- One iteration of the loop of `fcfs`, at position `pos`; past the end the
loop has ended and the state stays. -/
def fcfsStep (s : FcfsState) : FcfsState :=
  match s.processes[s.pos]? with
  | some p =>
    let time1 := if s.time < p.arrivalTime then p.arrivalTime else s.time
    let time2 := time1 + p.burstTime
    { processes := updateAt (fun q => { q with completionTime := time2 }) s.processes s.pos
      time := time2
      pos := s.pos + 1 }
  | none => s

/-- The state of `fcfs` before the first iteration. -/
def fcfsInit (processes : List Process) : FcfsState :=
  { processes := processes, time := 0, pos := 0 }

/-- Between the vector before an iteration and the vector after it, every
completion time is either kept, or was the unset value `0` and becomes a
value `≥ 1`. -/
def WriteOnce (before after : List Process) : Prop :=
  ∀ (i : Nat) (p q : Process), before[i]? = some p → after[i]? = some q →
    q.completionTime = p.completionTime ∨ (p.completionTime = 0 ∧ 1 ≤ q.completionTime)

/-- The loop invariant of the position loop of `fcfs`: the clock is not
negative, burst times are positive, the positions not yet visited have no
completion time, and a completion time is `0` or at least `1`. -/
def FcfsInv (s : FcfsState) : Prop :=
  0 ≤ s.time ∧ ∀ (i : Nat) (p : Process), s.processes[i]? = some p →
    0 < p.burstTime ∧ (s.pos ≤ i → p.completionTime = 0) ∧
    (p.completionTime = 0 ∨ 1 ≤ p.completionTime)

/-- In `srtf`, a record with remaining time left has no completion time. -/
def SrtfUnset (s : SchedState) : Prop :=
  ∀ p ∈ s.processes, 0 < p.remainingTime → p.completionTime = 0

/-- In `roundRobin`, a queued record has no completion time. -/
def RRUnset (s : RRState) : Prop :=
  ∀ (i : Nat) (p : Process), s.processes[i]? = some p → i ∈ s.readyQueue →
    p.completionTime = 0

/-- The number of iterations, among the first `k` from state `s`, in which
`srtf` selects index `i`: the time units process `i` executes. -/
def srtfExecuted (i : Nat) : Nat → SchedState → Nat
  | 0, _ => 0
  | k + 1, s => (if srtfSelect s = some i then 1 else 0) + srtfExecuted i k (srtfStep s)

/-- The execution intervals `[completionTime - burstTime, completionTime)` of
two records do not overlap: one ends no later than the other starts. -/
def RunsApart (p q : Process) : Prop :=
  p.completionTime ≤ q.completionTime - q.burstTime ∨
  q.completionTime ≤ p.completionTime - p.burstTime

/-- The invariant of `sjf` and `priorityScheduling` behind the disjointness
of the execution intervals: every written completion time is at most the
clock, and the intervals of the records completed so far are pairwise
disjoint. -/
def ApartInv (s : SchedState) : Prop :=
  NonPreInv s ∧
  (∀ p ∈ s.processes, p.completionTime ≠ 0 → p.completionTime ≤ s.time) ∧
  ∀ (i j : Nat) (p q : Process), i ≠ j → s.processes[i]? = some p →
    s.processes[j]? = some q → p.completionTime ≠ 0 → q.completionTime ≠ 0 → RunsApart p q

/-- The largest `int`, `INT_MAX`. -/
def INT_MAX : Int := 2147483647

/-- The smallest `int`, `INT_MIN`. -/
def INT_MIN : Int := -2147483648

/-- The 32-bit two's complement value of an exact result. -/
def wrap32 (x : Int) : Int :=
  (x + 2147483648) % 4294967296 - 2147483648

/-- The loop of `fcfs` (lines 50-57) on 32-bit integers. -/
def fcfsLoop32 : List Process → Int → List Process
  | [], _ => []
  | p :: ps, time =>
    let time1 := if time < p.arrivalTime then p.arrivalTime else time
    let time2 := wrap32 (time1 + p.burstTime)
    { p with completionTime := time2 } :: fcfsLoop32 ps time2

/-- The function `fcfs` on 32-bit integers. -/
def fcfs32 (processes : List Process) : List Process :=
  fcfsLoop32 processes 0

/-- One iteration of the loop of `fcfs` on 32-bit integers. -/
def fcfsStep32 (s : FcfsState) : FcfsState :=
  match s.processes[s.pos]? with
  | some p =>
    let time1 := if s.time < p.arrivalTime then p.arrivalTime else s.time
    let time2 := wrap32 (time1 + p.burstTime)
    { processes := updateAt (fun q => { q with completionTime := time2 }) s.processes s.pos
      time := time2
      pos := s.pos + 1 }
  | none => s

/-- One iteration of the `while` loop of `sjf` (lines 63-81) on 32-bit
integers. -/
def sjfStep32 (s : SchedState) : SchedState :=
  match sjfSelect s with
  | some idx =>
    match s.processes[idx]? with
    | some p =>
      let time1 := wrap32 (s.time + p.burstTime)
      { processes := updateAt (fun q => { q with completionTime := time1 }) s.processes idx
        time := time1
        completed := s.completed + 1 }
    | none => s
  | none => { s with time := wrap32 (s.time + 1) }

/-- The function `sjf` on 32-bit integers, run for at most `fuel` iterations. -/
def sjf32 (fuel : Nat) (processes : List Process) : Option (List Process) :=
  (whileLoop schedDone sjfStep32 fuel (schedInit processes)).map (fun s => s.processes)

/-- One iteration of the `while` loop of `srtf` (lines 87-108) on 32-bit
integers. -/
def srtfStep32 (s : SchedState) : SchedState :=
  match srtfSelect s with
  | some idx =>
    match s.processes[idx]? with
    | some p =>
      let time1 := wrap32 (s.time + 1)
      if wrap32 (p.remainingTime - 1) = 0 then
        { processes :=
            updateAt (fun q => { q with remainingTime := wrap32 (q.remainingTime - 1),
                                        completionTime := time1 }) s.processes idx
          time := time1
          completed := s.completed + 1 }
      else
        { processes :=
            updateAt (fun q => { q with remainingTime := wrap32 (q.remainingTime - 1) })
              s.processes idx
          time := time1
          completed := s.completed }
    | none => s
  | none => { s with time := wrap32 (s.time + 1) }

/-- One iteration of the `while` loop of `priorityScheduling` (lines 114-132)
on 32-bit integers. -/
def priorityStep32 (s : SchedState) : SchedState :=
  match prioritySelect s with
  | some idx =>
    match s.processes[idx]? with
    | some p =>
      let time1 := wrap32 (s.time + p.burstTime)
      { processes := updateAt (fun q => { q with completionTime := time1 }) s.processes idx
        time := time1
        completed := s.completed + 1 }
    | none => s
  | none => { s with time := wrap32 (s.time + 1) }

/-- The function `priorityScheduling` on 32-bit integers, run for at most
`fuel` iterations. -/
def priorityScheduling32 (fuel : Nat) (processes : List Process) : Option (List Process) :=
  (whileLoop schedDone priorityStep32 fuel (schedInit processes)).map (fun s => s.processes)

/-- One iteration of the `while` loop of `roundRobin` (lines 144-165) on
32-bit integers. -/
def rrStep32 (quantum : Int) (s : RRState) : RRState :=
  match s.readyQueue with
  | [] => s
  | idx :: rest =>
    match s.processes[idx]? with
    | some p =>
      if p.remainingTime > quantum then
        let time1 := wrap32 (s.time + quantum)
        let procs1 :=
          updateAt (fun q => { q with remainingTime := wrap32 (q.remainingTime - quantum) })
            s.processes idx
        { processes := procs1
          readyQueue := rrAdmit idx time1 procs1 0 rest ++ [idx]
          time := time1
          completed := s.completed }
      else
        let time1 := wrap32 (s.time + p.remainingTime)
        { processes := updateAt (fun q => { q with remainingTime := 0, completionTime := time1 })
            s.processes idx
          readyQueue := rest
          time := time1
          completed := s.completed + 1 }
    | none => { s with readyQueue := rest }

/-- The body of the loop of lines 23-29 on one record, on 32-bit integers. -/
def metricsOf32 (p : Process) : Process :=
  let p1 := { p with turnaroundTime := wrap32 (p.completionTime - p.arrivalTime) }
  { p1 with waitingTime := wrap32 (p1.turnaroundTime - p1.burstTime) }

/-- The loop of lines 23-29 on 32-bit integers. -/
def metricsLoop32 : List Process → Int → Int → Int → List Process × Int × Int × Int
  | [], tt, tw, tb => ([], tt, tw, tb)
  | p :: ps, tt, tw, tb =>
    let q := metricsOf32 p
    let r := metricsLoop32 ps (wrap32 (tt + q.turnaroundTime)) (wrap32 (tw + q.waitingTime))
      (wrap32 (tb + q.burstTime))
    (q :: r.1, r.2)

/-- The function `calculateMetrics` up to line 32 on 32-bit integers. -/
def calculateMetrics32 (processes : List Process) : Option Metrics :=
  let r := metricsLoop32 processes 0 0 0
  match r.1.getLast?, r.1.head? with
  | some last, some first =>
    some { processes := r.1
           totalTurnaroundTime := r.2.1
           totalWaitingTime := r.2.2.1
           totalBurstTime := r.2.2.2
           totalTimeSpan := wrap32 (last.completionTime - first.arrivalTime) }
  | _, _ => none

/-- A single fresh valid process that arrives at time `INT_MAX` with burst
time 1. -/
def arrivesLast : List Process :=
  [mkProcess 1 2147483647 1 0]

/-- Two fresh valid processes: P1 arrives at 5 with burst time `INT_MAX`, P2
arrives at 0 with burst time 1. -/
def longFirst : List Process :=
  [mkProcess 1 5 2147483647 0, mkProcess 2 0 1 0]

/-! ## Lemmas on the building blocks -/

theorem length_updateAt (f : Process → Process) (l : List Process) (i : Nat) :
    (updateAt f l i).length = l.length := by
  induction l generalizing i with
  | nil => rfl
  | cons p ps ih =>
    cases i with
    | zero => rfl
    | succ i => simp [updateAt, ih]

theorem getElem?_updateAt (f : Process → Process) (l : List Process) (i j : Nat) :
    (updateAt f l i)[j]? = if j = i then l[j]?.map f else l[j]? := by
  induction l generalizing i j with
  | nil => simp [updateAt]
  | cons p ps ih =>
    cases i with
    | zero =>
      cases j with
      | zero => simp [updateAt]
      | succ j => simp [updateAt]
    | succ i =>
      cases j with
      | zero => simp [updateAt]
      | succ j => simp [updateAt, ih]

theorem mem_updateAt {f : Process → Process} {l : List Process} {i : Nat} {q : Process}
    (h : q ∈ updateAt f l i) : q ∈ l ∨ ∃ p, l[i]? = some p ∧ q = f p := by
  induction l generalizing i with
  | nil => simp [updateAt] at h
  | cons p ps ih =>
    cases i with
    | zero =>
      simp only [updateAt, List.mem_cons] at h
      rcases h with h | h
      · exact Or.inr ⟨p, by simp, h⟩
      · exact Or.inl (List.mem_cons_of_mem _ h)
    | succ i =>
      simp only [updateAt, List.mem_cons] at h
      rcases h with h | h
      · exact Or.inl (by simp [h])
      · rcases ih h with h1 | ⟨p1, h1, h2⟩
        · exact Or.inl (List.mem_cons_of_mem _ h1)
        · exact Or.inr ⟨p1, by simpa using h1, h2⟩

theorem forall_mem_updateAt {f : Process → Process} {l : List Process} {i : Nat}
    {Q : Process → Prop} (hl : ∀ p ∈ l, Q p) (hf : ∀ p, l[i]? = some p → Q (f p)) :
    ∀ q ∈ updateAt f l i, Q q := by
  intro q hq
  rcases mem_updateAt hq with h | ⟨p, h1, h2⟩
  · exact hl q h
  · subst h2; exact hf p h1

theorem countP_updateAt_flip (P : Process → Bool) (f : Process → Process) (l : List Process)
    (i : Nat) (p : Process) (h : l[i]? = some p) (h0 : P p = false) (h1 : P (f p) = true) :
    (updateAt f l i).countP P = l.countP P + 1 := by
  induction l generalizing i with
  | nil => simp at h
  | cons a as ih =>
    cases i with
    | zero =>
      simp only [List.getElem?_cons_zero, Option.some.injEq] at h
      subst h
      simp [updateAt, List.countP_cons, h0, h1]
    | succ i =>
      simp only [List.getElem?_cons_succ] at h
      simp only [updateAt, List.countP_cons, ih i h]
      omega

theorem countP_updateAt_keep (P : Process → Bool) (f : Process → Process) (l : List Process)
    (i : Nat) (h : ∀ p, l[i]? = some p → P (f p) = P p) :
    (updateAt f l i).countP P = l.countP P := by
  induction l generalizing i with
  | nil => rfl
  | cons a as ih =>
    cases i with
    | zero => simp [updateAt, List.countP_cons, h a (by simp)]
    | succ i =>
      simp only [updateAt, List.countP_cons]
      rw [ih i (fun p hp => h p (by simpa using hp))]

/-- What the selection scan returns is the index it started with or the
position of a record that passes the `ok` test with a key below the bound. -/
theorem scanMin_some {ok : Process → Bool} {key : Process → Int} {l : List Process}
    {i : Nat} {idx : Option Nat} {best : Int} {j : Nat}
    (h : scanMin ok key l i idx best = some j) :
    idx = some j ∨ ∃ p, i ≤ j ∧ l[j - i]? = some p ∧ ok p = true ∧ key p < best := by
  induction l generalizing i idx best with
  | nil => exact Or.inl h
  | cons a as ih =>
    unfold scanMin at h
    split at h
    · rename_i hc
      simp only [Bool.and_eq_true, decide_eq_true_eq] at hc
      rcases ih h with h1 | ⟨p, h1, h2, h3, h4⟩
      · simp only [Option.some.injEq] at h1
        subst h1
        exact Or.inr ⟨a, le_refl _, by simp, hc.1, hc.2⟩
      · refine Or.inr ⟨p, by omega, ?_, h3, lt_trans h4 hc.2⟩
        have : j - i = (j - (i + 1)) + 1 := by omega
        rw [this, List.getElem?_cons_succ]
        exact h2
    · rcases ih h with h1 | ⟨p, h1, h2, h3, h4⟩
      · exact Or.inl h1
      · refine Or.inr ⟨p, by omega, ?_, h3, h4⟩
        have : j - i = (j - (i + 1)) + 1 := by omega
        rw [this, List.getElem?_cons_succ]
        exact h2

/-- A full scan that selects `j` selected a record at position `j` that
passes the `ok` test and has a key below `INT16_MAX`. -/
theorem scanMin_select {ok : Process → Bool} {key : Process → Int} {l : List Process}
    {j : Nat} (h : scanMin ok key l 0 none INT16_MAX = some j) :
    ∃ p, l[j]? = some p ∧ ok p = true ∧ key p < INT16_MAX := by
  rcases scanMin_some h with h1 | ⟨p, _, h2, h3, h4⟩
  · cases h1
  · exact ⟨p, by simpa using h2, h3, h4⟩

/-- An invariant of the loop body holds in the state a `while` loop ends in,
where the loop condition is false. -/
theorem whileLoop_invariant {σ : Type} {done : σ → Bool} {body : σ → σ} (Inv : σ → Prop)
    (hstep : ∀ s, Inv s → done s = false → Inv (body s)) :
    ∀ (fuel : Nat) (s s1 : σ), Inv s → whileLoop done body fuel s = some s1 →
      Inv s1 ∧ done s1 = true := by
  intro fuel
  induction fuel with
  | zero =>
    intro s s1 hs h
    unfold whileLoop at h
    split at h
    · cases h; exact ⟨hs, by assumption⟩
    · cases h
  | succ n ih =>
    intro s s1 hs h
    unfold whileLoop at h
    split at h
    · cases h; exact ⟨hs, by assumption⟩
    · rename_i hd
      exact ih (body s) s1 (hstep s hs (by simpa using hd)) h

/-- An invariant of the loop body holds after any number of iterations. -/
theorem iterate_invariant {σ : Type} {body : σ → σ} (Inv : σ → Prop)
    (hstep : ∀ s, Inv s → Inv (body s)) :
    ∀ (k : Nat) (s : σ), Inv s → Inv (iterate body k s) := by
  intro k
  induction k with
  | zero => intro s hs; exact hs
  | succ n ih => intro s hs; exact ih (body s) (hstep s hs)

/-! ## Completion never precedes arrival plus burst -/

theorem fcfsLoop_completion (ps : List Process) (time : Int) :
    ∀ p ∈ fcfsLoop ps time, p.arrivalTime + p.burstTime ≤ p.completionTime := by
  induction ps generalizing time with
  | nil => intro p hp; simp [fcfsLoop] at hp
  | cons a as ih =>
    intro p hp
    simp only [fcfsLoop, List.mem_cons] at hp
    rcases hp with hp | hp
    · subst hp
      simp only
      split <;> omega
    · exact ih _ p hp

theorem nonPreInv_init (ps : List Process) (h : ∀ p ∈ ps, Fresh p) :
    NonPreInv (schedInit ps) := by
  refine ⟨le_refl _, ?_, ?_⟩
  · simp only [schedInit]
    symm
    rw [List.countP_eq_zero]
    intro p hp
    simp [(h p hp).2.2.1]
  · intro p hp
    exact ⟨(h p hp).1, (h p hp).2.1, Or.inl (h p hp).2.2.1⟩

/-- Running the selected record to completion keeps the invariant. -/
theorem nonPreInv_complete {s : SchedState} {idx : Nat} {p : Process} (hs : NonPreInv s)
    (hp : s.processes[idx]? = some p) (harr : p.arrivalTime ≤ s.time)
    (hc : p.completionTime = 0) :
    NonPreInv
      { processes :=
          updateAt (fun q => { q with completionTime := s.time + p.burstTime }) s.processes idx
        time := s.time + p.burstTime
        completed := s.completed + 1 } := by
  obtain ⟨ht, hcount, hall⟩ := hs
  have hmem : p ∈ s.processes := List.getElem?_mem hp
  have hpb := (hall p hmem).1
  refine ⟨by simp only; omega, ?_, ?_⟩
  · simp only
    rw [countP_updateAt_flip _ _ _ idx p hp (by simp [hc]) (by simp; omega), hcount]
  · simp only
    apply forall_mem_updateAt hall
    intro p1 hp1
    rw [hp] at hp1
    cases hp1
    exact ⟨hpb, (hall p hmem).2.1, Or.inr (by simp only; omega)⟩

theorem nonPreInv_idle {s : SchedState} (hs : NonPreInv s) :
    NonPreInv { s with time := s.time + 1 } := by
  obtain ⟨ht, hcount, hall⟩ := hs
  exact ⟨by simp only; omega, hcount, hall⟩

theorem sjfStep_nonPreInv (s : SchedState) (hs : NonPreInv s) : NonPreInv (sjfStep s) := by
  unfold sjfStep
  split
  · rename_i idx hsel
    obtain ⟨p, hp, hok, _⟩ := scanMin_select hsel
    simp only [Bool.and_eq_true, decide_eq_true_eq] at hok
    rw [hp]
    exact nonPreInv_complete hs hp hok.1 hok.2
  · exact nonPreInv_idle hs

theorem priorityStep_nonPreInv (s : SchedState) (hs : NonPreInv s) :
    NonPreInv (priorityStep s) := by
  unfold priorityStep
  split
  · rename_i idx hsel
    obtain ⟨p, hp, hok, _⟩ := scanMin_select hsel
    simp only [Bool.and_eq_true, decide_eq_true_eq] at hok
    rw [hp]
    exact nonPreInv_complete hs hp hok.1 hok.2
  · exact nonPreInv_idle hs

/-- When the loop condition is false under the invariant, every record has
its completion time, no earlier than arrival plus burst. -/
theorem nonPreInv_done {s : SchedState} (hs : NonPreInv s) (hd : schedDone s = true) :
    ∀ p ∈ s.processes, p.completionTime ≠ 0 ∧
      p.arrivalTime + p.burstTime ≤ p.completionTime := by
  obtain ⟨_, hcount, hall⟩ := hs
  simp only [schedDone, beq_iff_eq] at hd
  rw [hcount, List.countP_eq_length] at hd
  intro p hp
  have h1 : p.completionTime ≠ 0 := by simpa using hd p hp
  rcases (hall p hp).2.2 with h2 | h2
  · exact absurd h2 h1
  · exact ⟨h1, h2⟩

theorem srtfInv_init (ps : List Process) (h : ∀ p ∈ ps, Fresh p) :
    SrtfInv (schedInit ps) := by
  refine ⟨le_refl _, ?_, ?_⟩
  · simp only [schedInit]
    symm
    rw [List.countP_eq_zero]
    intro p hp
    obtain ⟨h1, _, _, h4⟩ := h p hp
    simp only [decide_eq_true_eq]
    omega
  · intro p hp
    obtain ⟨h1, h2, _, h4⟩ := h p hp
    refine ⟨h1, h2, by omega, by omega, fun h5 => by omega, fun h5 => by omega⟩

theorem srtfStep_srtfInv (s : SchedState) (hs : SrtfInv s) : SrtfInv (srtfStep s) := by
  obtain ⟨ht, hcount, hall⟩ := hs
  unfold srtfStep
  split
  · rename_i idx hsel
    obtain ⟨p, hp, hok, _⟩ := scanMin_select hsel
    simp only [Bool.and_eq_true, decide_eq_true_eq, gt_iff_lt] at hok
    rw [hp]
    have hmem : p ∈ s.processes := List.getElem?_mem hp
    obtain ⟨hb, ha, hr0, hrb, hrun, _⟩ := hall p hmem
    have hold : ∀ q ∈ s.processes, 0 < q.burstTime ∧ 0 ≤ q.arrivalTime ∧
        0 ≤ q.remainingTime ∧ q.remainingTime ≤ q.burstTime ∧
        (q.remainingTime < q.burstTime →
          q.arrivalTime + (q.burstTime - q.remainingTime) ≤ s.time + 1) ∧
        (q.remainingTime = 0 → q.arrivalTime + q.burstTime ≤ q.completionTime) := by
      intro q hq
      obtain ⟨h1, h2, h3, h4, h5, h6⟩ := hall q hq
      exact ⟨h1, h2, h3, h4, fun h => by have := h5 h; omega, h6⟩
    simp only
    split
    · rename_i hz
      refine ⟨by simp only; omega, ?_, ?_⟩
      · simp only
        rw [countP_updateAt_flip _ _ _ idx p hp (by simp; omega) (by simp; omega), hcount]
      · simp only
        apply forall_mem_updateAt hold
        intro p1 hp1
        rw [hp] at hp1
        cases hp1
        refine ⟨hb, ha, by simp only; omega, by simp only; omega, ?_, ?_⟩
        · intro _
          simp only
          by_cases hlt : p.remainingTime < p.burstTime
          · have := hrun hlt; omega
          · omega
        · intro _
          simp only
          by_cases hlt : p.remainingTime < p.burstTime
          · have := hrun hlt; omega
          · omega
    · rename_i hz
      refine ⟨by simp only; omega, ?_, ?_⟩
      · simp only
        rw [countP_updateAt_keep _ _ _ idx, hcount]
        intro p1 hp1
        rw [hp] at hp1
        cases hp1
        have h1 : ¬ p.remainingTime - 1 = 0 := hz
        have h2 : ¬ p.remainingTime = 0 := by omega
        simp [h1, h2]
      · simp only
        apply forall_mem_updateAt hold
        intro p1 hp1
        rw [hp] at hp1
        cases hp1
        refine ⟨hb, ha, by simp only; omega, by simp only; omega, ?_, ?_⟩
        · intro _
          simp only
          by_cases hlt : p.remainingTime < p.burstTime
          · have := hrun hlt; omega
          · omega
        · intro h0
          exact absurd h0 hz
  · refine ⟨by simp only; omega, hcount, ?_⟩
    intro q hq
    obtain ⟨h1, h2, h3, h4, h5, h6⟩ := hall q hq
    exact ⟨h1, h2, h3, h4, fun h => by have := h5 h; simp only; omega, h6⟩

/-- When the loop condition of `srtf` is false under the invariant, every
record has no remaining time and finished no earlier than arrival plus burst. -/
theorem srtfInv_done {s : SchedState} (hs : SrtfInv s) (hd : schedDone s = true) :
    ∀ p ∈ s.processes, p.remainingTime = 0 ∧
      p.arrivalTime + p.burstTime ≤ p.completionTime := by
  obtain ⟨_, hcount, hall⟩ := hs
  simp only [schedDone, beq_iff_eq] at hd
  rw [hcount, List.countP_eq_length] at hd
  intro p hp
  have h1 : p.remainingTime = 0 := by simpa using hd p hp
  exact ⟨h1, (hall p hp).2.2.2.2.2 h1⟩

theorem sjf_result {fuel : Nat} {ps r : List Process} (h : sjf fuel ps = some r) :
    ∃ s, whileLoop schedDone sjfStep fuel (schedInit ps) = some s ∧ s.processes = r := by
  simpa [sjf] using h

theorem srtf_result {fuel : Nat} {ps r : List Process} (h : srtf fuel ps = some r) :
    ∃ s, whileLoop schedDone srtfStep fuel (schedInit ps) = some s ∧ s.processes = r := by
  simpa [srtf] using h

theorem priorityScheduling_result {fuel : Nat} {ps r : List Process}
    (h : priorityScheduling fuel ps = some r) :
    ∃ s, whileLoop schedDone priorityStep fuel (schedInit ps) = some s ∧ s.processes = r := by
  simpa [priorityScheduling] using h

theorem sjf_completion_bound (ps : List Process) (hfresh : ∀ p ∈ ps, Fresh p) (fuel : Nat)
    (r : List Process) (h : sjf fuel ps = some r) :
    ∀ p ∈ r, p.completionTime ≠ 0 ∧ p.arrivalTime + p.burstTime ≤ p.completionTime := by
  obtain ⟨s, hs, rfl⟩ := sjf_result h
  obtain ⟨hinv, hd⟩ := whileLoop_invariant NonPreInv
    (fun s hs _ => sjfStep_nonPreInv s hs) fuel _ s (nonPreInv_init ps hfresh) hs
  exact nonPreInv_done hinv hd

theorem priority_completion_bound (ps : List Process) (hfresh : ∀ p ∈ ps, Fresh p)
    (fuel : Nat) (r : List Process) (h : priorityScheduling fuel ps = some r) :
    ∀ p ∈ r, p.completionTime ≠ 0 ∧ p.arrivalTime + p.burstTime ≤ p.completionTime := by
  obtain ⟨s, hs, rfl⟩ := priorityScheduling_result h
  obtain ⟨hinv, hd⟩ := whileLoop_invariant NonPreInv
    (fun s hs _ => priorityStep_nonPreInv s hs) fuel _ s (nonPreInv_init ps hfresh) hs
  exact nonPreInv_done hinv hd

theorem srtf_completion_bound (ps : List Process) (hfresh : ∀ p ∈ ps, Fresh p) (fuel : Nat)
    (r : List Process) (h : srtf fuel ps = some r) :
    ∀ p ∈ r, p.remainingTime = 0 ∧ p.arrivalTime + p.burstTime ≤ p.completionTime := by
  obtain ⟨s, hs, rfl⟩ := srtf_result h
  obtain ⟨hinv, hd⟩ := whileLoop_invariant SrtfInv
    (fun s hs _ => srtfStep_srtfInv s hs) fuel _ s (srtfInv_init ps hfresh) hs
  exact srtfInv_done hinv hd

/-- C1: on fresh valid input, every record in the result of `fcfs`, and in
the result of `sjf`, `srtf` and `priorityScheduling` whenever the run ends
(within any number of iterations), has
`completionTime ≥ arrivalTime + burstTime`. -/
theorem completion_ge_arrival_add_burst (ps : List Process) (hfresh : ∀ p ∈ ps, Fresh p) :
    (∀ p ∈ fcfs ps, p.completionTime ≥ p.arrivalTime + p.burstTime) ∧
    (∀ fuel r, sjf fuel ps = some r →
      ∀ p ∈ r, p.completionTime ≥ p.arrivalTime + p.burstTime) ∧
    (∀ fuel r, srtf fuel ps = some r →
      ∀ p ∈ r, p.completionTime ≥ p.arrivalTime + p.burstTime) ∧
    (∀ fuel r, priorityScheduling fuel ps = some r →
      ∀ p ∈ r, p.completionTime ≥ p.arrivalTime + p.burstTime) := by
  refine ⟨fcfsLoop_completion ps 0, ?_, ?_, ?_⟩
  · exact fun fuel r h p hp => (sjf_completion_bound ps hfresh fuel r h p hp).2
  · exact fun fuel r h p hp => (srtf_completion_bound ps hfresh fuel r h p hp).2
  · exact fun fuel r h p hp => (priority_completion_bound ps hfresh fuel r h p hp).2

/-- The example P1(0,8), P2(1,4), P3(2,9), P4(3,5) is fresh valid input on
which all three loops end, and C1 holds of it. -/
theorem completion_ge_arrival_add_burst_witness :
    (∀ p ∈ exampleFour, Fresh p) ∧
    (sjf 4 exampleFour).isSome = true ∧ (srtf 26 exampleFour).isSome = true ∧
    (priorityScheduling 4 exampleFour).isSome = true ∧
    ((∀ p ∈ fcfs exampleFour, p.completionTime ≥ p.arrivalTime + p.burstTime) ∧
     (∀ fuel r, sjf fuel exampleFour = some r →
       ∀ p ∈ r, p.completionTime ≥ p.arrivalTime + p.burstTime) ∧
     (∀ fuel r, srtf fuel exampleFour = some r →
       ∀ p ∈ r, p.completionTime ≥ p.arrivalTime + p.burstTime) ∧
     (∀ fuel r, priorityScheduling fuel exampleFour = some r →
       ∀ p ∈ r, p.completionTime ≥ p.arrivalTime + p.burstTime)) :=
  ⟨by decide, by decide, by decide, by decide,
    completion_ge_arrival_add_burst exampleFour (by decide)⟩

/-- C2: `roundRobin` breaks `completionTime ≥ arrivalTime + burstTime`.  On
the fresh valid input of one process with arrival time 5 and burst time 1 and
quantum 1, the process is dequeued at clock 0 and gets completion time 1,
below its arrival plus burst of 6. -/
theorem roundRobin_completes_before_arrival :
    (∀ p ∈ lateArrival, Fresh p) ∧
    roundRobin 1 lateArrival 1 =
      some [{ mkProcess 1 5 1 0 with completionTime := 1, remainingTime := 0 }] ∧
    ∃ r, roundRobin 1 lateArrival 1 = some r ∧
      ∃ p ∈ r, p.completionTime < p.arrivalTime + p.burstTime := by
  refine ⟨by decide, by decide, _, rfl, ?_⟩
  decide

/-! ## Runs that never end -/

theorem sjf_longJob_loops (fuel : Nat) (t : Int) :
    whileLoop schedDone sjfStep fuel { processes := longJob, time := t, completed := 0 } =
      none := by
  induction fuel generalizing t with
  | zero => simp [whileLoop, schedDone, longJob]
  | succ n ih =>
    have hstep : sjfStep { processes := longJob, time := t, completed := 0 } =
        { processes := longJob, time := t + 1, completed := 0 } := by
      simp [sjfStep, sjfSelect, scanMin, longJob, mkProcess, INT16_MAX]
    rw [whileLoop, hstep, ih]
    simp [schedDone, longJob]

theorem srtf_longJob_loops (fuel : Nat) (t : Int) :
    whileLoop schedDone srtfStep fuel { processes := longJob, time := t, completed := 0 } =
      none := by
  induction fuel generalizing t with
  | zero => simp [whileLoop, schedDone, longJob]
  | succ n ih =>
    have hstep : srtfStep { processes := longJob, time := t, completed := 0 } =
        { processes := longJob, time := t + 1, completed := 0 } := by
      simp [srtfStep, srtfSelect, scanMin, longJob, mkProcess, INT16_MAX]
    rw [whileLoop, hstep, ih]
    simp [schedDone, longJob]

theorem priority_longJob_loops (fuel : Nat) (t : Int) :
    whileLoop schedDone priorityStep fuel { processes := longJob, time := t, completed := 0 } =
      none := by
  induction fuel generalizing t with
  | zero => simp [whileLoop, schedDone, longJob]
  | succ n ih =>
    have hstep : priorityStep { processes := longJob, time := t, completed := 0 } =
        { processes := longJob, time := t + 1, completed := 0 } := by
      simp [priorityStep, prioritySelect, scanMin, longJob, mkProcess, INT16_MAX]
    rw [whileLoop, hstep, ih]
    simp [schedDone, longJob]

/-- C3: `sjf`, `srtf` and `priorityScheduling` are not total on valid input.
On the fresh valid input of one process with arrival time 0 and burst time
and priority 32767 = `INT16_MAX`, the scan never selects the process (its key
is not below the initial minimum), every iteration is an idle tick, and no
number of iterations ends any of the three loops. -/
theorem scan_bound_blocks_termination :
    (∀ p ∈ longJob, Fresh p) ∧
    ∀ fuel : Nat, sjf fuel longJob = none ∧ srtf fuel longJob = none ∧
      priorityScheduling fuel longJob = none := by
  refine ⟨by decide, fun fuel => ⟨?_, ?_, ?_⟩⟩
  · simp [sjf, schedInit, sjf_longJob_loops]
  · simp [srtf, schedInit, srtf_longJob_loops]
  · simp [priorityScheduling, schedInit, priority_longJob_loops]

/-! ## fcfs: the completion-time recurrence -/

theorem fcfsLoop_recurrence (ps : List Process) (time : Int) (i : Nat) (p : Process)
    (h : ps[i]? = some p) :
    (fcfsLoop ps time)[i]? = some { p with
      completionTime := max (clockBefore (fcfsLoop ps time) time i) p.arrivalTime
        + p.burstTime } := by
  induction ps generalizing time i with
  | nil => simp at h
  | cons a as ih =>
    cases i with
    | zero =>
      simp only [List.getElem?_cons_zero, Option.some.injEq] at h
      subst h
      simp only [fcfsLoop, List.getElem?_cons_zero, clockBefore, Option.some.injEq]
      congr 1
      split
      · rw [max_eq_right (by omega)]
      · rw [max_eq_left (by omega)]
    | succ j =>
      simp only [List.getElem?_cons_succ] at h
      simp only [fcfsLoop, List.getElem?_cons_succ]
      rw [ih _ j h]
      cases j with
      | zero => simp [clockBefore]
      | succ k => simp [clockBefore]

/-- C5: for every process list, `fcfs` turns the record at each position `i`
into the same record with completion time
`max(c, arrivalTime) + burstTime`, where `c` is `0` at the first position and
the completion time written at position `i - 1` after it. -/
theorem fcfs_completion_recurrence (ps : List Process) (i : Nat) (p : Process)
    (h : ps[i]? = some p) :
    (fcfs ps)[i]? = some { p with
      completionTime := max (clockBefore (fcfs ps) 0 i) p.arrivalTime + p.burstTime } :=
  fcfsLoop_recurrence ps 0 i p h

/-- The recurrence of C5 at the third record of an input given out of
arrival order: the clock stands at 12 and the record gets 12 + 2 = 14. -/
theorem fcfs_completion_recurrence_witness :
    (fcfs [mkProcess 1 4 5 0, mkProcess 2 0 3 0, mkProcess 3 1 2 0])[2]? =
      some { mkProcess 3 1 2 0 with
        completionTime :=
          max (clockBefore (fcfs [mkProcess 1 4 5 0, mkProcess 2 0 3 0, mkProcess 3 1 2 0]) 0 2)
            (mkProcess 3 1 2 0).arrivalTime + (mkProcess 3 1 2 0).burstTime } :=
  fcfs_completion_recurrence [mkProcess 1 4 5 0, mkProcess 2 0 3 0, mkProcess 3 1 2 0] 2
    (mkProcess 3 1 2 0) (by decide)

/-! ## calculateMetrics -/

theorem metricsLoop_fst (ps : List Process) (tt tw tb : Int) :
    (metricsLoop ps tt tw tb).1 = ps.map metricsOf := by
  induction ps generalizing tt tw tb with
  | nil => rfl
  | cons a as ih => simp [metricsLoop, ih]

theorem calculateMetrics_cons (a : Process) (as : List Process) :
    calculateMetrics (a :: as) = some
      { processes := (a :: as).map metricsOf
        totalTurnaroundTime := (metricsLoop (a :: as) 0 0 0).2.1
        totalWaitingTime := (metricsLoop (a :: as) 0 0 0).2.2.1
        totalBurstTime := (metricsLoop (a :: as) 0 0 0).2.2.2
        totalTimeSpan :=
          ((a :: as).getLast (List.cons_ne_nil a as)).completionTime - a.arrivalTime } := by
  have h1 : ((a :: as).map metricsOf).getLast? =
      some (metricsOf ((a :: as).getLast (List.cons_ne_nil a as))) := by
    rw [List.getLast?_eq_getLast _ (by simp), List.getLast_map]
  have h2 : ((a :: as).map metricsOf).head? = some (metricsOf a) := by simp
  unfold calculateMetrics
  simp only [metricsLoop_fst]
  rw [h1, h2]
  simp [metricsOf]

/-- C7: on P1(0,5), P2(1,3), P3(2,8) in that order, `fcfs` followed by
`calculateMetrics` yields completion times 5, 8, 16, turnaround times
5, 7, 14 and waiting times 0, 4, 6. -/
theorem fcfs_example_metrics :
    (calculateMetrics (fcfs exampleThree)).map
        (fun m => m.processes.map
          (fun p => (p.id, p.completionTime, p.turnaroundTime, p.waitingTime))) =
      some [(1, 5, 5, 0), (2, 8, 7, 4), (3, 16, 14, 6)] := by
  decide

/-- C8: on P1(0,8), P2(1,4), P3(2,9), P4(3,5) in that order with fresh state,
`sjf` ends after four iterations, selects the processes in the order
P1, P2, P4, P3, and leaves the completion times P1=8, P2=12, P3=26, P4=17. -/
theorem sjf_example_order :
    (∀ p ∈ exampleFour, Fresh p) ∧
    (sjfOrder 4 (schedInit exampleFour)).map
        (fun i => (exampleFour[i]?).map (fun p => p.id)) =
      [some 1, some 2, some 4, some 3] ∧
    (sjf 4 exampleFour).map (fun r => r.map (fun p => (p.id, p.completionTime))) =
      some [(1, 8), (2, 12), (3, 26), (4, 17)] ∧
    (sjfOrder 4 (schedInit exampleFour)).map
        (fun i => (((sjf 4 exampleFour).getD [])[i]?).map (fun p => p.completionTime)) =
      [some 8, some 12, some 17, some 26] := by
  decide

/-! ## roundRobin: termination -/

theorem remainingWork_updateAt (f : Process → Process) (l : List Process) (i : Nat)
    (p : Process) (h : l[i]? = some p) :
    remainingWork (updateAt f l i) + p.remainingTime.toNat =
      remainingWork l + (f p).remainingTime.toNat := by
  induction l generalizing i with
  | nil => simp at h
  | cons a as ih =>
    cases i with
    | zero =>
      simp only [List.getElem?_cons_zero, Option.some.injEq] at h
      subst h
      simp only [updateAt, remainingWork, List.map_cons, List.sum_cons]
      omega
    | succ i =>
      simp only [List.getElem?_cons_succ] at h
      have := ih i h
      simp only [updateAt, remainingWork, List.map_cons, List.sum_cons] at this ⊢
      omega

/-- The admission scan adds nothing when every record outside the queue,
other than the running one, has a completion time. -/
theorem rrAdmit_noop (idx : Nat) (time : Int) (l : List Process) (i0 : Nat) (queue : List Nat)
    (h : ∀ (j : Nat) (p : Process), l[j]? = some p → i0 + j ≠ idx → i0 + j ∉ queue →
      p.completionTime ≠ 0) :
    rrAdmit idx time l i0 queue = queue := by
  induction l generalizing i0 with
  | nil => rfl
  | cons a as ih =>
    unfold rrAdmit
    have hrest : rrAdmit idx time as (i0 + 1) queue = queue := by
      apply ih
      intro j p hp h1 h2
      have e : i0 + 1 + j = i0 + (j + 1) := by omega
      rw [e] at h1 h2
      exact h (j + 1) p (by simpa using hp) h1 h2
    split
    · rename_i hc
      obtain ⟨h1, _, h3, h4⟩ := hc
      exact absurd h3 (h 0 a (by simp) (by simpa using h1) (by simpa using h4))
    · exact hrest

theorem rrInv_init (ps : List Process)
    (h : ∀ p ∈ ps, 0 < p.burstTime ∧ p.completionTime = 0 ∧ p.remainingTime = p.burstTime) :
    RRInv (rrInit ps) := by
  refine ⟨le_refl _, List.nodup_range _, fun i hi => by simpa [rrInit] using hi, ?_⟩
  intro i p hp
  have hmem := List.getElem?_mem hp
  have hlt : i < ps.length := (List.getElem?_eq_some.mp hp).1
  refine ⟨fun _ => by have := h p hmem; omega, fun hn => ?_⟩
  exact absurd (by simpa [rrInit] using hlt) hn

/-- One `roundRobin` iteration keeps the invariant and, while the queue is
not empty, decreases the sum of the remaining times. -/
theorem rrStep_inv (quantum : Int) (hq : 0 < quantum) (s : RRState) (hs : RRInv s) :
    RRInv (rrStep quantum s) ∧
    (rrDone s = false →
      remainingWork (rrStep quantum s).processes < remainingWork s.processes) := by
  obtain ⟨procs, queue, time, completed⟩ := s
  obtain ⟨ht, hnd, hrange, hall⟩ := hs
  cases queue with
  | nil => exact ⟨⟨ht, hnd, hrange, hall⟩, fun h => by simp [rrDone] at h⟩
  | cons idx rest =>
    simp only at ht hnd hrange hall
    have hidx : idx < procs.length := hrange idx (List.mem_cons_self _ _)
    obtain ⟨p, hp⟩ : ∃ p, procs[idx]? = some p := ⟨procs[idx], List.getElem?_eq_getElem hidx⟩
    have hprem : 0 < p.remainingTime := (hall idx p hp).1 (List.mem_cons_self _ _)
    have hnotin : idx ∉ rest := (List.nodup_cons.mp hnd).1
    have hndrest : rest.Nodup := (List.nodup_cons.mp hnd).2
    simp only [rrStep, hp]
    split
    · rename_i hgt
      have hscan : rrAdmit idx (time + quantum)
          (updateAt (fun q => { q with remainingTime := q.remainingTime - quantum }) procs idx)
          0 rest = rest := by
        apply rrAdmit_noop
        intro j p1 hp1 h1 h2
        simp only [Nat.zero_add] at h1 h2
        rw [getElem?_updateAt, if_neg h1] at hp1
        exact ne_of_gt ((hall j p1 hp1).2 (by simp [h1, h2])).2
      rw [hscan]
      refine ⟨⟨by simp only; omega, ?_, ?_, ?_⟩, fun _ => ?_⟩
      · simp only
        rw [List.nodup_append]
        refine ⟨hndrest, List.nodup_singleton _, ?_⟩
        intro a ha hb
        simp only [List.mem_singleton] at hb
        subst hb
        exact hnotin ha
      · intro i hi
        simp only [List.mem_append, List.mem_singleton] at hi
        simp only [length_updateAt]
        rcases hi with hi | hi
        · exact hrange i (List.mem_cons_of_mem _ hi)
        · subst hi; exact hidx
      · intro i p1 hp1
        simp only at hp1
        rw [getElem?_updateAt] at hp1
        simp only [List.mem_append, List.mem_singleton]
        by_cases hi : i = idx
        · subst hi
          rw [if_pos rfl, hp] at hp1
          simp only [Option.map_some', Option.some.injEq] at hp1
          subst hp1
          refine ⟨fun _ => by simp only; omega, fun hn => absurd (Or.inr rfl) hn⟩
        · rw [if_neg hi] at hp1
          obtain ⟨h1, h2⟩ := hall i p1 hp1
          refine ⟨fun hm => h1 ?_, fun hn => h2 ?_⟩
          · rcases hm with hm | hm
            · exact List.mem_cons_of_mem _ hm
            · exact absurd hm hi
          · intro hm
            rcases List.mem_cons.mp hm with hm | hm
            · exact hi hm
            · exact hn (Or.inl hm)
      · simp only
        have := remainingWork_updateAt
          (fun q => { q with remainingTime := q.remainingTime - quantum }) procs idx p hp
        simp only at this
        omega
    · rename_i hle
      refine ⟨⟨by simp only; omega, hndrest, ?_, ?_⟩, fun _ => ?_⟩
      · intro i hi
        simp only [length_updateAt]
        exact hrange i (List.mem_cons_of_mem _ hi)
      · intro i p1 hp1
        simp only at hp1
        rw [getElem?_updateAt] at hp1
        by_cases hi : i = idx
        · subst hi
          rw [if_pos rfl, hp] at hp1
          simp only [Option.map_some', Option.some.injEq] at hp1
          subst hp1
          refine ⟨fun hm => absurd hm hnotin, fun _ => ⟨rfl, ?_⟩⟩
          simp only
          omega
        · rw [if_neg hi] at hp1
          obtain ⟨h1, h2⟩ := hall i p1 hp1
          refine ⟨fun hm => h1 (List.mem_cons_of_mem _ hm), fun hn => h2 ?_⟩
          intro hm
          rcases List.mem_cons.mp hm with hm | hm
          · exact hi hm
          · exact hn hm
      · simp only
        have := remainingWork_updateAt
          (fun q => { q with remainingTime := 0, completionTime := time + p.remainingTime })
          procs idx p hp
        simp only at this
        omega

theorem roundRobin_result {fuel : Nat} {ps r : List Process} {quantum : Int}
    (h : roundRobin fuel ps quantum = some r) :
    ∃ s, roundRobinRun fuel ps quantum = some s ∧ s.processes = r := by
  simpa [roundRobin] using h

theorem forall₂_refl_of {R : Process → Process → Prop} (hR : ∀ p, R p p) (l : List Process) :
    List.Forall₂ R l l := by
  induction l with
  | nil => exact List.Forall₂.nil
  | cons a as ih => exact List.Forall₂.cons (hR a) ih

/-- A relation to the input that survives the rewrite `f` of one record
survives the assignment at any index. -/
theorem forall₂_updateAt {R : Process → Process → Prop} {f : Process → Process}
    (hf : ∀ p q, R p q → R p (f q)) {ps l : List Process} (h : List.Forall₂ R ps l)
    (i : Nat) : List.Forall₂ R ps (updateAt f l i) := by
  induction h generalizing i with
  | nil => exact List.Forall₂.nil
  | cons hab _ ih =>
    cases i with
    | zero => exact List.Forall₂.cons (hf _ _ hab) (by assumption)
    | succ i => exact List.Forall₂.cons hab (ih i)

theorem forall₂_getElem? {R : Process → Process → Prop} {ps l : List Process}
    (h : List.Forall₂ R ps l) (i : Nat) (p : Process) (hp : ps[i]? = some p) :
    ∃ q, l[i]? = some q ∧ R p q := by
  induction h generalizing i with
  | nil => simp at hp
  | cons hab _ ih =>
    cases i with
    | zero =>
      simp only [List.getElem?_cons_zero, Option.some.injEq] at hp
      subst hp
      exact ⟨_, by simp, hab⟩
    | succ i => simpa using ih i (by simpa using hp)

theorem onlyCompletion_set (c : Int) (p q : Process) (h : OnlyCompletion p q) :
    OnlyCompletion p { q with completionTime := c } := by
  unfold OnlyCompletion at h ⊢
  rw [h]

theorem onlyCompletionRemaining_set (c r : Int) (p q : Process)
    (h : OnlyCompletionRemaining p q) :
    OnlyCompletionRemaining p { q with remainingTime := r, completionTime := c } := by
  unfold OnlyCompletionRemaining at h ⊢
  rw [h]

theorem onlyCompletionRemaining_setRemaining (r : Int) (p q : Process)
    (h : OnlyCompletionRemaining p q) :
    OnlyCompletionRemaining p { q with remainingTime := r } := by
  unfold OnlyCompletionRemaining at h ⊢
  rw [h]

theorem fcfsLoop_frame (ps : List Process) (time : Int) :
    List.Forall₂ OnlyCompletion ps (fcfsLoop ps time) := by
  induction ps generalizing time with
  | nil => exact List.Forall₂.nil
  | cons a as ih => exact List.Forall₂.cons rfl (ih _)

theorem sjfStep_frame (ps : List Process) (s : SchedState)
    (h : List.Forall₂ OnlyCompletion ps s.processes) :
    List.Forall₂ OnlyCompletion ps (sjfStep s).processes := by
  unfold sjfStep
  split
  · split
    · exact forall₂_updateAt (fun p q hpq => onlyCompletion_set _ p q hpq) h _
    · exact h
  · exact h

theorem priorityStep_frame (ps : List Process) (s : SchedState)
    (h : List.Forall₂ OnlyCompletion ps s.processes) :
    List.Forall₂ OnlyCompletion ps (priorityStep s).processes := by
  unfold priorityStep
  split
  · split
    · exact forall₂_updateAt (fun p q hpq => onlyCompletion_set _ p q hpq) h _
    · exact h
  · exact h

theorem srtfStep_frame (ps : List Process) (s : SchedState)
    (h : List.Forall₂ OnlyCompletionRemaining ps s.processes) :
    List.Forall₂ OnlyCompletionRemaining ps (srtfStep s).processes := by
  unfold srtfStep
  split
  · split
    · simp only
      split
      · exact forall₂_updateAt
          (fun p q hpq => onlyCompletionRemaining_set _ _ p q hpq) h _
      · exact forall₂_updateAt
          (fun p q hpq => onlyCompletionRemaining_setRemaining _ p q hpq) h _
    · exact h
  · exact h

theorem rrStep_frame (quantum : Int) (ps : List Process) (s : RRState)
    (h : List.Forall₂ OnlyCompletionRemaining ps s.processes) :
    List.Forall₂ OnlyCompletionRemaining ps (rrStep quantum s).processes := by
  unfold rrStep
  split
  · exact h
  · split
    · simp only
      split
      · exact forall₂_updateAt
          (fun p q hpq => onlyCompletionRemaining_setRemaining _ p q hpq) h _
      · exact forall₂_updateAt
          (fun p q hpq => onlyCompletionRemaining_set _ _ p q hpq) h _
    · exact h

theorem sjf_frame (ps : List Process) (fuel : Nat) (r : List Process)
    (h : sjf fuel ps = some r) : List.Forall₂ OnlyCompletion ps r := by
  obtain ⟨s, hs, rfl⟩ := sjf_result h
  exact (whileLoop_invariant (fun s => List.Forall₂ OnlyCompletion ps s.processes)
    (fun s hs _ => sjfStep_frame ps s hs) fuel _ s
    (@forall₂_refl_of OnlyCompletion (fun _ => rfl) ps) hs).1

theorem priority_frame (ps : List Process) (fuel : Nat) (r : List Process)
    (h : priorityScheduling fuel ps = some r) : List.Forall₂ OnlyCompletion ps r := by
  obtain ⟨s, hs, rfl⟩ := priorityScheduling_result h
  exact (whileLoop_invariant (fun s => List.Forall₂ OnlyCompletion ps s.processes)
    (fun s hs _ => priorityStep_frame ps s hs) fuel _ s
    (@forall₂_refl_of OnlyCompletion (fun _ => rfl) ps) hs).1

theorem srtf_frame (ps : List Process) (fuel : Nat) (r : List Process)
    (h : srtf fuel ps = some r) : List.Forall₂ OnlyCompletionRemaining ps r := by
  obtain ⟨s, hs, rfl⟩ := srtf_result h
  exact (whileLoop_invariant (fun s => List.Forall₂ OnlyCompletionRemaining ps s.processes)
    (fun s hs _ => srtfStep_frame ps s hs) fuel _ s
    (@forall₂_refl_of OnlyCompletionRemaining (fun _ => rfl) ps) hs).1

theorem roundRobin_frame (ps : List Process) (quantum : Int) (fuel : Nat) (r : List Process)
    (h : roundRobin fuel ps quantum = some r) :
    List.Forall₂ OnlyCompletionRemaining ps r := by
  obtain ⟨s, hs, rfl⟩ := roundRobin_result h
  exact (whileLoop_invariant (fun s => List.Forall₂ OnlyCompletionRemaining ps s.processes)
    (fun s hs _ => rrStep_frame quantum ps s hs) fuel _ s
    (@forall₂_refl_of OnlyCompletionRemaining (fun _ => rfl) ps) hs).1

/-- C10: for every process list (and every quantum), `fcfs` returns the
records in the same number and order, each changed in `completionTime` at
most; the same holds of the vector after any number of iterations of `sjf`
and `priorityScheduling`, hence of every result they return; and after any
number of iterations of `srtf` and `roundRobin`, hence in every result they
return, each record is changed in `completionTime` and `remainingTime` at
most.  So `id`, `arrivalTime`, `burstTime`, `priority`, `turnaroundTime` and
`waitingTime` are never written, and `remainingTime` only by `srtf` and
`roundRobin`. -/
theorem algorithms_frame (ps : List Process) (quantum : Int) :
    List.Forall₂ OnlyCompletion ps (fcfs ps) ∧
    (∀ k, List.Forall₂ OnlyCompletion ps (iterate sjfStep k (schedInit ps)).processes) ∧
    (∀ k, List.Forall₂ OnlyCompletion ps (iterate priorityStep k (schedInit ps)).processes) ∧
    (∀ k, List.Forall₂ OnlyCompletionRemaining ps
      (iterate srtfStep k (schedInit ps)).processes) ∧
    (∀ k, List.Forall₂ OnlyCompletionRemaining ps
      (iterate (rrStep quantum) k (rrInit ps)).processes) ∧
    (∀ fuel r, sjf fuel ps = some r → List.Forall₂ OnlyCompletion ps r) ∧
    (∀ fuel r, priorityScheduling fuel ps = some r → List.Forall₂ OnlyCompletion ps r) ∧
    (∀ fuel r, srtf fuel ps = some r → List.Forall₂ OnlyCompletionRemaining ps r) ∧
    (∀ fuel r, roundRobin fuel ps quantum = some r →
      List.Forall₂ OnlyCompletionRemaining ps r) := by
  have h1 : List.Forall₂ OnlyCompletion ps ps :=
    @forall₂_refl_of OnlyCompletion (fun _ => rfl) ps
  have h2 : List.Forall₂ OnlyCompletionRemaining ps ps :=
    @forall₂_refl_of OnlyCompletionRemaining (fun _ => rfl) ps
  refine ⟨fcfsLoop_frame ps 0, ?_, ?_, ?_, ?_, ?_, ?_, ?_, ?_⟩
  · exact fun k => iterate_invariant (fun s : SchedState => List.Forall₂ OnlyCompletion ps s.processes)
      (sjfStep_frame ps) k _ h1
  · exact fun k => iterate_invariant (fun s : SchedState => List.Forall₂ OnlyCompletion ps s.processes)
      (priorityStep_frame ps) k _ h1
  · exact fun k =>
      iterate_invariant (fun s : SchedState => List.Forall₂ OnlyCompletionRemaining ps s.processes)
        (srtfStep_frame ps) k _ h2
  · exact fun k =>
      iterate_invariant (fun s : RRState => List.Forall₂ OnlyCompletionRemaining ps s.processes)
        (rrStep_frame quantum ps) k _ h2
  · exact sjf_frame ps
  · exact priority_frame ps
  · exact srtf_frame ps
  · exact roundRobin_frame ps quantum

/-- C10 on P1(0,8), P2(1,4), P3(2,9), P4(3,5) with quantum 3: the four loops
end there, and their results differ from the input in the fields named. -/
theorem algorithms_frame_witness :
    (sjf 4 exampleFour).isSome = true ∧ (priorityScheduling 4 exampleFour).isSome = true ∧
    (srtf 26 exampleFour).isSome = true ∧ (roundRobin 11 exampleFour 3).isSome = true ∧
    (∀ r, sjf 4 exampleFour = some r → List.Forall₂ OnlyCompletion exampleFour r) ∧
    (∀ r, priorityScheduling 4 exampleFour = some r →
      List.Forall₂ OnlyCompletion exampleFour r) ∧
    (∀ r, srtf 26 exampleFour = some r → List.Forall₂ OnlyCompletionRemaining exampleFour r) ∧
    (∀ r, roundRobin 11 exampleFour 3 = some r →
      List.Forall₂ OnlyCompletionRemaining exampleFour r) :=
  ⟨by decide, by decide, by decide, by decide,
    (algorithms_frame exampleFour 3).2.2.2.2.2.1 4,
    (algorithms_frame exampleFour 3).2.2.2.2.2.2.1 4,
    (algorithms_frame exampleFour 3).2.2.2.2.2.2.2.1 26,
    (algorithms_frame exampleFour 3).2.2.2.2.2.2.2.2 11⟩

/-! ## The total time span of calculateMetrics -/

theorem calculateMetrics_span (r : List Process) (a b : Process) (ha : r.head? = some a)
    (hb : r.getLast? = some b) :
    ∃ m, calculateMetrics r = some m ∧
      m.totalTimeSpan = b.completionTime - a.arrivalTime := by
  cases r with
  | nil => simp at ha
  | cons x xs =>
    simp only [List.head?_cons, Option.some.injEq] at ha
    rw [List.getLast?_eq_getLast _ (List.cons_ne_nil x xs), Option.some.injEq] at hb
    subst ha
    subst hb
    exact ⟨_, calculateMetrics_cons x xs, rfl⟩

theorem forall₂_head? {R : Process → Process → Prop} {ps l : List Process}
    (h : List.Forall₂ R ps l) (a : Process) (ha : ps.head? = some a) :
    ∃ b, l.head? = some b ∧ R a b := by
  rw [List.head?_eq_getElem?] at ha ⊢
  exact forall₂_getElem? h 0 a ha

theorem forall₂_getLast? {R : Process → Process → Prop} {ps l : List Process}
    (h : List.Forall₂ R ps l) (a : Process) (ha : ps.getLast? = some a) :
    ∃ b, l.getLast? = some b ∧ R a b := by
  rw [List.getLast?_eq_getElem?] at ha ⊢
  rw [← h.length_eq]
  exact forall₂_getElem? h _ a ha

theorem onlyCompletion_weaken {ps l : List Process} (h : List.Forall₂ OnlyCompletion ps l) :
    List.Forall₂ OnlyCompletionRemaining ps l := by
  refine h.imp ?_
  intro p q hpq
  unfold OnlyCompletion at hpq
  unfold OnlyCompletionRemaining
  rw [hpq]

theorem onlyCompletionRemaining_inputs {p q : Process} (h : OnlyCompletionRemaining p q) :
    q.arrivalTime = p.arrivalTime ∧ q.burstTime = p.burstTime := by
  unfold OnlyCompletionRemaining at h
  have h1 := congrArg Process.arrivalTime h
  have h2 := congrArg Process.burstTime h
  exact ⟨h1, h2⟩

/-- The span `calculateMetrics` computes on a list that differs from the
input in completion and remaining times only: the completion time of the
record at the last position, which has the arrival and burst time of the last
input record, minus the arrival time of the first input record. -/
theorem span_of_frame {ps r : List Process} (h : List.Forall₂ OnlyCompletionRemaining ps r)
    (first last : Process) (hfirst : ps.head? = some first)
    (hlast : ps.getLast? = some last) :
    ∃ (m : Metrics) (b : Process), calculateMetrics r = some m ∧ r.getLast? = some b ∧
      b ∈ r ∧ b.arrivalTime = last.arrivalTime ∧ b.burstTime = last.burstTime ∧
      m.totalTimeSpan = b.completionTime - first.arrivalTime := by
  obtain ⟨a, ha, hfa⟩ := forall₂_head? h first hfirst
  obtain ⟨b, hb, hlb⟩ := forall₂_getLast? h last hlast
  obtain ⟨m, hm, hspan⟩ := calculateMetrics_span r a b ha hb
  have hmem : b ∈ r := by
    rw [List.getLast?_eq_getElem?] at hb
    exact List.getElem?_mem hb
  refine ⟨m, b, hm, hb, hmem, ?_, ?_, ?_⟩
  · exact (onlyCompletionRemaining_inputs hlb).1
  · exact (onlyCompletionRemaining_inputs hlb).2
  · rw [hspan]
    have := (onlyCompletionRemaining_inputs hfa).1
    omega

theorem totalBurst_nonneg (ps : List Process) (h : ∀ p ∈ ps, 0 < p.burstTime) :
    0 ≤ totalBurst ps := by
  induction ps with
  | nil => simp [totalBurst]
  | cons a as ih =>
    have h1 := h a (List.mem_cons_self _ _)
    have h2 := ih (fun p hp => h p (List.mem_cons_of_mem _ hp))
    simp only [totalBurst, List.map_cons, List.sum_cons] at h2 ⊢
    omega

theorem totalBurst_pos (ps : List Process) (a : Process) (ha : ps.head? = some a)
    (h : ∀ p ∈ ps, 0 < p.burstTime) : 0 < totalBurst ps := by
  cases ps with
  | nil => simp at ha
  | cons x xs =>
    have h1 := h x (List.mem_cons_self _ _)
    have h2 := totalBurst_nonneg xs (fun p hp => h p (List.mem_cons_of_mem _ hp))
    simp only [totalBurst, List.map_cons, List.sum_cons] at h2 ⊢
    omega

/-- The last completion time `fcfs` writes is at least the starting clock,
and at least the first arrival time, plus the sum of all burst times. -/
theorem fcfsLoop_getLast (ps : List Process) (time : Int) (q : Process)
    (h : (fcfsLoop ps time).getLast? = some q) :
    time + totalBurst ps ≤ q.completionTime ∧
    ∀ a, ps.head? = some a → a.arrivalTime + totalBurst ps ≤ q.completionTime := by
  induction ps generalizing time with
  | nil => simp [fcfsLoop] at h
  | cons x xs ih =>
    cases xs with
    | nil =>
      simp only [fcfsLoop, List.getLast?_singleton, Option.some.injEq] at h
      subst h
      simp only [totalBurst, List.map_cons, List.map_nil, List.sum_cons, List.sum_nil,
        List.head?_cons, Option.some.injEq]
      refine ⟨by split <;> omega, fun a ha => ?_⟩
      subst ha
      split <;> omega
    | cons y ys =>
      have hstep : (fcfsLoop (x :: y :: ys) time).getLast? =
          (fcfsLoop (y :: ys)
            ((if time < x.arrivalTime then x.arrivalTime else time) + x.burstTime)).getLast? := by
        simp [fcfsLoop]
      rw [hstep] at h
      have h1 := (ih _ h).1
      have e : totalBurst (x :: y :: ys) = x.burstTime + totalBurst (y :: ys) := by
        simp [totalBurst]
      rw [e]
      refine ⟨by split at h1 <;> omega, fun a ha => ?_⟩
      simp only [List.head?_cons, Option.some.injEq] at ha
      subst ha
      split at h1 <;> omega

/-- C9: the span `calculateMetrics` divides by can be zero.  On the fresh
valid input P1(5,3), P2(0,5) it is `5 - 5 = 0` after `sjf`, `srtf` and
`priorityScheduling`, which finish the last record P2 at time 5, the arrival
time of the first record P1 (the first arrival is 0 and the last completion 8);
after `roundRobin` with quantum 5 on P1(3,1), P2(0,2) it is `3 - 3 = 0`. -/
theorem totalTimeSpan_zero :
    (∀ p ∈ earlyLast, Fresh p) ∧ (∀ p ∈ earlyLastShort, Fresh p) ∧
    ((sjf 2 earlyLast).bind calculateMetrics).map (fun m => m.totalTimeSpan) = some 0 ∧
    ((srtf 8 earlyLast).bind calculateMetrics).map (fun m => m.totalTimeSpan) = some 0 ∧
    ((priorityScheduling 2 earlyLast).bind calculateMetrics).map
      (fun m => m.totalTimeSpan) = some 0 ∧
    ((roundRobin 2 earlyLastShort 5).bind calculateMetrics).map
      (fun m => m.totalTimeSpan) = some 0 ∧
    ((sjf32 2 earlyLast).bind calculateMetrics32).map (fun m => m.totalTimeSpan) = some 0 ∧
    (sjf 2 earlyLast).map (fun r => r.map (fun p => (p.arrivalTime, p.completionTime)))
      = some [(5, 8), (0, 5)] := by
  decide

/-! ## The selection scan picks the lowest-index minimum -/

/-- The selection scan either keeps the index it started with, every record
that passes the `ok` test having a key no smaller than the bound, or returns
the position of a record that passes the test with a key below the bound, no
larger than the key of any record that passes, and strictly smaller than the
key of every earlier record that passes. -/
theorem scanMin_spec (ok : Process → Bool) (key : Process → Int) (l : List Process)
    (i : Nat) (idx : Option Nat) (best : Int) :
    (scanMin ok key l i idx best = idx ∧ ∀ q ∈ l, ok q = true → best ≤ key q) ∨
    (∃ (j : Nat) (p : Process), scanMin ok key l i idx best = some (i + j) ∧
      l[j]? = some p ∧ ok p = true ∧ key p < best ∧
      (∀ (m : Nat) (q : Process), l[m]? = some q → ok q = true → key p ≤ key q) ∧
      (∀ (m : Nat) (q : Process), m < j → l[m]? = some q → ok q = true → key p < key q)) := by
  induction l generalizing i idx best with
  | nil => exact Or.inl ⟨rfl, fun q hq => by simp at hq⟩
  | cons a as ih =>
    unfold scanMin
    split
    · rename_i hc
      simp only [Bool.and_eq_true, decide_eq_true_eq] at hc
      rcases ih (i + 1) (some i) (key a) with ⟨h1, h2⟩ | ⟨j, p, h1, h2, h3, h4, h5, h6⟩
      · refine Or.inr ⟨0, a, by simpa using h1, by simp, hc.1, hc.2, ?_, ?_⟩
        · intro m q hq hok
          cases m with
          | zero =>
            simp only [List.getElem?_cons_zero, Option.some.injEq] at hq
            subst hq
            exact le_refl _
          | succ m =>
            simp only [List.getElem?_cons_succ] at hq
            exact h2 q (List.getElem?_mem hq) hok
        · intro m q hm
          omega
      · refine Or.inr ⟨j + 1, p, ?_, by simpa using h2, h3, lt_trans h4 hc.2, ?_, ?_⟩
        · rw [h1]
          congr 1
          omega
        · intro m q hq hok
          cases m with
          | zero =>
            simp only [List.getElem?_cons_zero, Option.some.injEq] at hq
            subst hq
            exact le_of_lt h4
          | succ m =>
            simp only [List.getElem?_cons_succ] at hq
            exact h5 m q hq hok
        · intro m q hm hq hok
          cases m with
          | zero =>
            simp only [List.getElem?_cons_zero, Option.some.injEq] at hq
            subst hq
            exact h4
          | succ m =>
            simp only [List.getElem?_cons_succ] at hq
            exact h6 m q (by omega) hq hok
    · rename_i hc
      simp only [Bool.and_eq_true, decide_eq_true_eq, not_and, not_lt] at hc
      rcases ih (i + 1) idx best with ⟨h1, h2⟩ | ⟨j, p, h1, h2, h3, h4, h5, h6⟩
      · refine Or.inl ⟨h1, ?_⟩
        intro q hq hok
        rcases List.mem_cons.mp hq with hq | hq
        · subst hq; exact hc hok
        · exact h2 q hq hok
      · refine Or.inr ⟨j + 1, p, ?_, by simpa using h2, h3, h4, ?_, ?_⟩
        · rw [h1]
          congr 1
          omega
        · intro m q hq hok
          cases m with
          | zero =>
            simp only [List.getElem?_cons_zero, Option.some.injEq] at hq
            subst hq
            exact le_of_lt (lt_of_lt_of_le h4 (hc hok))
          | succ m =>
            simp only [List.getElem?_cons_succ] at hq
            exact h5 m q hq hok
        · intro m q hm hq hok
          cases m with
          | zero =>
            simp only [List.getElem?_cons_zero, Option.some.injEq] at hq
            subst hq
            exact lt_of_lt_of_le h4 (hc hok)
          | succ m =>
            simp only [List.getElem?_cons_succ] at hq
            exact h6 m q (by omega) hq hok

/-- A full scan that selects `j` selected the lowest-index record of minimal
key among those that pass the `ok` test. -/
theorem scanMin_select_min {ok : Process → Bool} {key : Process → Int} {l : List Process}
    {j : Nat} (h : scanMin ok key l 0 none INT16_MAX = some j) :
    ∃ p, l[j]? = some p ∧ ok p = true ∧ key p < INT16_MAX ∧
      (∀ (m : Nat) (q : Process), l[m]? = some q → ok q = true → key p ≤ key q) ∧
      (∀ (m : Nat) (q : Process), m < j → l[m]? = some q → ok q = true → key p < key q) := by
  rcases scanMin_spec ok key l 0 none INT16_MAX with ⟨h1, _⟩ | ⟨k, p, h1, h2, h3, h4, h5, h6⟩
  · rw [h1] at h; cases h
  · rw [h1] at h
    simp only [Nat.zero_add, Option.some.injEq] at h
    subst h
    exact ⟨p, h2, h3, h4, h5, h6⟩

theorem sjfStep_of_select {s : SchedState} {idx : Nat} {p : Process}
    (hsel : sjfSelect s = some idx) (hp : s.processes[idx]? = some p) :
    sjfStep s =
      { processes :=
          updateAt (fun q => { q with completionTime := s.time + p.burstTime }) s.processes idx
        time := s.time + p.burstTime
        completed := s.completed + 1 } := by
  unfold sjfStep
  rw [hsel]
  simp only [hp]

theorem priorityStep_of_select {s : SchedState} {idx : Nat} {p : Process}
    (hsel : prioritySelect s = some idx) (hp : s.processes[idx]? = some p) :
    priorityStep s =
      { processes :=
          updateAt (fun q => { q with completionTime := s.time + p.burstTime }) s.processes idx
        time := s.time + p.burstTime
        completed := s.completed + 1 } := by
  unfold priorityStep
  rw [hsel]
  simp only [hp]

/-- C12: in any state of `sjf` (key `burstTime`) and of `priorityScheduling`
(key `priority`), when the scan picks `idx`, the record at `idx` has arrived
and has `completionTime = 0`, no arrived record with `completionTime = 0` has
a strictly smaller key, none at a smaller index has an equal key, and the
iteration writes `completionTime = time + burstTime` at `idx`, moves the
clock there and counts one more completed process. -/
theorem selection_lowest_index_min (s : SchedState) (idx : Nat) :
    (sjfSelect s = some idx →
      ∃ p, s.processes[idx]? = some p ∧ p.arrivalTime ≤ s.time ∧ p.completionTime = 0 ∧
        (∀ (m : Nat) (q : Process), s.processes[m]? = some q → q.arrivalTime ≤ s.time →
          q.completionTime = 0 → ¬ q.burstTime < p.burstTime) ∧
        (∀ (m : Nat) (q : Process), m < idx → s.processes[m]? = some q →
          q.arrivalTime ≤ s.time → q.completionTime = 0 → q.burstTime ≠ p.burstTime) ∧
        sjfStep s =
          { processes :=
              updateAt (fun q => { q with completionTime := s.time + p.burstTime })
                s.processes idx
            time := s.time + p.burstTime
            completed := s.completed + 1 } ∧
        (sjfStep s).processes[idx]? =
          some { p with completionTime := s.time + p.burstTime }) ∧
    (prioritySelect s = some idx →
      ∃ p, s.processes[idx]? = some p ∧ p.arrivalTime ≤ s.time ∧ p.completionTime = 0 ∧
        (∀ (m : Nat) (q : Process), s.processes[m]? = some q → q.arrivalTime ≤ s.time →
          q.completionTime = 0 → ¬ q.priority < p.priority) ∧
        (∀ (m : Nat) (q : Process), m < idx → s.processes[m]? = some q →
          q.arrivalTime ≤ s.time → q.completionTime = 0 → q.priority ≠ p.priority) ∧
        priorityStep s =
          { processes :=
              updateAt (fun q => { q with completionTime := s.time + p.burstTime })
                s.processes idx
            time := s.time + p.burstTime
            completed := s.completed + 1 } ∧
        (priorityStep s).processes[idx]? =
          some { p with completionTime := s.time + p.burstTime }) := by
  constructor
  · intro hsel
    obtain ⟨p, hp, hok, _, hmin, hfirst⟩ := scanMin_select_min hsel
    simp only [Bool.and_eq_true, decide_eq_true_eq] at hok
    refine ⟨p, hp, hok.1, hok.2, ?_, ?_, sjfStep_of_select hsel hp, ?_⟩
    · intro m q hq h1 h2
      have := hmin m q hq (by simp [h1, h2])
      omega
    · intro m q hm hq h1 h2
      have := hfirst m q hm hq (by simp [h1, h2])
      omega
    · rw [sjfStep_of_select hsel hp]
      simp only [getElem?_updateAt, if_pos, hp, Option.map_some']
  · intro hsel
    obtain ⟨p, hp, hok, _, hmin, hfirst⟩ := scanMin_select_min hsel
    simp only [Bool.and_eq_true, decide_eq_true_eq] at hok
    refine ⟨p, hp, hok.1, hok.2, ?_, ?_, priorityStep_of_select hsel hp, ?_⟩
    · intro m q hq h1 h2
      have := hmin m q hq (by simp [h1, h2])
      omega
    · intro m q hm hq h1 h2
      have := hfirst m q hm hq (by simp [h1, h2])
      omega
    · rw [priorityStep_of_select hsel hp]
      simp only [getElem?_updateAt, if_pos, hp, Option.map_some']

/-- C12 in the state of P1(0,8), P2(1,4), P3(2,9), P4(3,5) after P1 has run:
`sjf` picks P2, the shortest of the three that wait, and
`priorityScheduling` picks P2, the first of three with equal priority. -/
theorem selection_lowest_index_min_witness :
    sjfSelect (sjfStep (schedInit exampleFour)) = some 1 ∧
    prioritySelect (priorityStep (schedInit exampleFour)) = some 1 ∧
    (∃ p, (sjfStep (schedInit exampleFour)).processes[1]? = some p ∧
      (sjfStep (sjfStep (schedInit exampleFour))).processes[1]? =
        some { p with completionTime := (sjfStep (schedInit exampleFour)).time + p.burstTime }) ∧
    (∃ p, (priorityStep (schedInit exampleFour)).processes[1]? = some p ∧
      (priorityStep (priorityStep (schedInit exampleFour))).processes[1]? =
        some { p with
          completionTime := (priorityStep (schedInit exampleFour)).time + p.burstTime }) := by
  refine ⟨by decide, by decide, ?_, ?_⟩
  · obtain ⟨p, h1, _, _, _, _, _, h2⟩ :=
      (selection_lowest_index_min (sjfStep (schedInit exampleFour)) 1).1 (by decide)
    exact ⟨p, h1, h2⟩
  · obtain ⟨p, h1, _, _, _, _, _, h2⟩ :=
      (selection_lowest_index_min (priorityStep (schedInit exampleFour)) 1).2 (by decide)
    exact ⟨p, h1, h2⟩

/-! ## priorityScheduling is sjf with the key replaced -/

theorem scanMin_congr_key (ok : Process → Bool) (key1 key2 : Process → Int)
    (l : List Process) (h : ∀ p ∈ l, key1 p = key2 p) (i : Nat) (idx : Option Nat)
    (best : Int) : scanMin ok key1 l i idx best = scanMin ok key2 l i idx best := by
  induction l generalizing i idx best with
  | nil => rfl
  | cons a as ih =>
    have ha : key1 a = key2 a := h a (List.mem_cons_self _ _)
    have has : ∀ p ∈ as, key1 p = key2 p := fun p hp => h p (List.mem_cons_of_mem _ hp)
    unfold scanMin
    rw [ha, ih has, ih has]

theorem whileLoop_congr {σ : Type} {done : σ → Bool} {body1 body2 : σ → σ} (Inv : σ → Prop)
    (hbody : ∀ s, Inv s → body1 s = body2 s) (hinv : ∀ s, Inv s → Inv (body2 s)) :
    ∀ (fuel : Nat) (s : σ), Inv s →
      whileLoop done body1 fuel s = whileLoop done body2 fuel s := by
  intro fuel
  induction fuel with
  | zero => intro s _; rfl
  | succ n ih =>
    intro s hs
    unfold whileLoop
    rw [hbody s hs, ih (body2 s) (hinv s hs)]

theorem iterate_congr {σ : Type} {body1 body2 : σ → σ} (Inv : σ → Prop)
    (hbody : ∀ s, Inv s → body1 s = body2 s) (hinv : ∀ s, Inv s → Inv (body2 s)) :
    ∀ (k : Nat) (s : σ), Inv s → iterate body1 k s = iterate body2 k s := by
  intro k
  induction k with
  | zero => intro s _; rfl
  | succ n ih =>
    intro s hs
    unfold iterate
    rw [hbody s hs, ih (body2 s) (hinv s hs)]

theorem priorityStep_eq_sjfStep (s : SchedState)
    (h : ∀ p ∈ s.processes, p.priority = p.burstTime) : priorityStep s = sjfStep s := by
  have hsel : prioritySelect s = sjfSelect s := by
    unfold prioritySelect sjfSelect
    exact scanMin_congr_key _ _ _ _ h _ _ _
  unfold priorityStep sjfStep
  rw [hsel]

theorem sjfStep_keeps_keys (s : SchedState)
    (h : ∀ p ∈ s.processes, p.priority = p.burstTime) :
    ∀ p ∈ (sjfStep s).processes, p.priority = p.burstTime := by
  unfold sjfStep
  split
  · split
    · exact forall_mem_updateAt h (fun p hp => h p (List.getElem?_mem hp))
    · exact h
  · exact h

/-- C14: on every process list in which each priority equals the burst time,
`priorityScheduling` and `sjf` return the same result for every fuel (the
same records, hence the same completion times, or both none), and are in the
same state after any number of iterations. -/
theorem priorityScheduling_eq_sjf (ps : List Process)
    (h : ∀ p ∈ ps, p.priority = p.burstTime) :
    (∀ fuel, priorityScheduling fuel ps = sjf fuel ps) ∧
    (∀ k, iterate priorityStep k (schedInit ps) = iterate sjfStep k (schedInit ps)) := by
  constructor
  · intro fuel
    unfold priorityScheduling sjf
    rw [whileLoop_congr (fun s : SchedState => ∀ p ∈ s.processes, p.priority = p.burstTime)
      priorityStep_eq_sjfStep sjfStep_keeps_keys fuel (schedInit ps) h]
  · intro k
    exact iterate_congr (fun s : SchedState => ∀ p ∈ s.processes, p.priority = p.burstTime)
      priorityStep_eq_sjfStep sjfStep_keeps_keys k (schedInit ps) h

/-- C14 on P1(0,8), P2(1,4), P3(2,9), P4(3,5) with priorities 8, 4, 9, 5, a
fresh list on which both loops end after four iterations. -/
theorem priorityScheduling_eq_sjf_witness :
    (∀ p ∈ exampleFourKeyed, Fresh p) ∧ (sjf 4 exampleFourKeyed).isSome = true ∧
    (∀ fuel, priorityScheduling fuel exampleFourKeyed = sjf fuel exampleFourKeyed) ∧
    (∀ k, iterate priorityStep k (schedInit exampleFourKeyed) =
      iterate sjfStep k (schedInit exampleFourKeyed)) :=
  ⟨by decide, by decide, priorityScheduling_eq_sjf exampleFourKeyed (by decide)⟩

/-- C15: `roundRobin` with quantum 2 on the fresh input P1(0,5), P2(1,3) runs
the slices P1[0,2), P2[2,4), P1[4,6), P2[6,7), P1[7,8) (indices 0 and 1 are P1
and P2), ends after these five iterations with an empty queue, and leaves
completion time 8 for P1 and 7 for P2, both with remaining time 0. -/
theorem roundRobin_example_trace :
    (∀ p ∈ exampleTwo, Fresh p) ∧
    rrSlices 2 5 (rrInit exampleTwo) =
      [(0, 0, 2), (1, 2, 4), (0, 4, 6), (1, 6, 7), (0, 7, 8)] ∧
    (roundRobinRun 5 exampleTwo 2).map (fun s => s.readyQueue) = some [] ∧
    (roundRobin 5 exampleTwo 2).map
        (fun r => r.map (fun p => (p.id, p.completionTime, p.remainingTime))) =
      some [(1, 8, 0), (2, 7, 0)] := by
  decide

/-! ## fcfs: the span covers the total burst time -/

theorem metricsLoop_totalBurst (ps : List Process) (tt tw tb : Int) :
    (metricsLoop ps tt tw tb).2.2.2 = tb + totalBurst ps := by
  induction ps generalizing tt tw tb with
  | nil => simp [metricsLoop, totalBurst]
  | cons a as ih =>
    simp only [metricsLoop, ih, totalBurst, List.map_cons, List.sum_cons, metricsOf]
    omega

theorem calculateMetrics_totalBurst (r : List Process) (m : Metrics)
    (h : calculateMetrics r = some m) : m.totalBurstTime = totalBurst r := by
  cases r with
  | nil => simp [calculateMetrics, metricsLoop] at h
  | cons a as =>
    rw [calculateMetrics_cons, Option.some.injEq] at h
    subst h
    simp only [metricsLoop_totalBurst]
    omega

theorem totalBurst_fcfsLoop (ps : List Process) (time : Int) :
    totalBurst (fcfsLoop ps time) = totalBurst ps := by
  induction ps generalizing time with
  | nil => rfl
  | cons a as ih =>
    have := ih ((if time < a.arrivalTime then a.arrivalTime else time) + a.burstTime)
    simp only [totalBurst, fcfsLoop, List.map_cons, List.sum_cons] at this ⊢
    rw [this]

/-! ## Completion times are written once, with a value of at least 1 -/

theorem writeOnce_refl (l : List Process) : WriteOnce l l := by
  intro i p q hp hq
  rw [hp] at hq
  cases hq
  exact Or.inl rfl

theorem writeOnce_updateAt (f : Process → Process) (l : List Process) (idx : Nat)
    (h : ∀ p, l[idx]? = some p →
      (f p).completionTime = p.completionTime ∨
        (p.completionTime = 0 ∧ 1 ≤ (f p).completionTime)) :
    WriteOnce l (updateAt f l idx) := by
  intro i p q hp hq
  rw [getElem?_updateAt] at hq
  by_cases hi : i = idx
  · subst hi
    rw [if_pos rfl, hp] at hq
    simp only [Option.map_some', Option.some.injEq] at hq
    subst hq
    exact h p hp
  · rw [if_neg hi, hp] at hq
    cases hq
    exact Or.inl rfl

theorem updateAt_append_length (f : Process → Process) (done : List Process) (a : Process)
    (as : List Process) : updateAt f (done ++ a :: as) done.length = done ++ f a :: as := by
  induction done with
  | nil => rfl
  | cons d ds ih => simp [updateAt, ih]

theorem getElem?_append_length (done : List Process) (a : Process) (as : List Process) :
    (done ++ a :: as)[done.length]? = some a := by
  induction done with
  | nil => simp
  | cons d ds ih => simpa using ih

/-- The position loop of `fcfs`, run over the records still to visit,
produces what the recursive pass `fcfsLoop` produces on them. -/
theorem iterate_fcfsStep (rest done : List Process) (t : Int) :
    (iterate fcfsStep rest.length
      { processes := done ++ rest, time := t, pos := done.length }).processes =
      done ++ fcfsLoop rest t := by
  induction rest generalizing done t with
  | nil => simp [iterate, fcfsLoop]
  | cons a as ih =>
    have hstep : fcfsStep { processes := done ++ a :: as, time := t, pos := done.length } =
        { processes := (done ++ [{ a with completionTime :=
              (if t < a.arrivalTime then a.arrivalTime else t) + a.burstTime }]) ++ as
          time := (if t < a.arrivalTime then a.arrivalTime else t) + a.burstTime
          pos := (done ++ [{ a with completionTime :=
              (if t < a.arrivalTime then a.arrivalTime else t) + a.burstTime }]).length } := by
      unfold fcfsStep
      simp only [getElem?_append_length, updateAt_append_length]
      simp
    simp only [List.length_cons, iterate]
    rw [hstep, ih]
    simp [fcfsLoop]

theorem iterate_fcfsStep_eq_fcfs (ps : List Process) :
    (iterate fcfsStep ps.length (fcfsInit ps)).processes = fcfs ps := by
  have := iterate_fcfsStep ps [] 0
  simpa [fcfsInit, fcfs] using this

theorem fcfsInv_init (ps : List Process) (h : ∀ p ∈ ps, Fresh p) : FcfsInv (fcfsInit ps) := by
  refine ⟨le_refl _, fun i p hp => ?_⟩
  have := h p (List.getElem?_mem hp)
  exact ⟨this.1, fun _ => this.2.2.1, Or.inl this.2.2.1⟩

theorem fcfsStep_inv (s : FcfsState) (hs : FcfsInv s) :
    FcfsInv (fcfsStep s) ∧ WriteOnce s.processes (fcfsStep s).processes := by
  obtain ⟨ht, hall⟩ := hs
  unfold fcfsStep
  split
  · rename_i p hp
    have hb := (hall s.pos p hp).1
    have hc := (hall s.pos p hp).2.1 (le_refl _)
    refine ⟨⟨by simp only; split <;> omega, ?_⟩, ?_⟩
    · intro i q hq
      simp only at hq
      rw [getElem?_updateAt] at hq
      by_cases hi : i = s.pos
      · subst hi
        rw [if_pos rfl, hp] at hq
        simp only [Option.map_some', Option.some.injEq] at hq
        subst hq
        refine ⟨hb, fun h => by simp only at h; omega, Or.inr ?_⟩
        simp only
        split <;> omega
      · rw [if_neg hi] at hq
        exact ⟨(hall i q hq).1, fun h => (hall i q hq).2.1 (by simp only at h; omega),
          (hall i q hq).2.2⟩
    · apply writeOnce_updateAt
      intro p1 hp1
      rw [hp] at hp1
      cases hp1
      refine Or.inr ⟨hc, ?_⟩
      simp only
      split <;> omega
  · exact ⟨⟨ht, hall⟩, writeOnce_refl _⟩

theorem sjfStep_writeOnce (s : SchedState) (hs : NonPreInv s) :
    WriteOnce s.processes (sjfStep s).processes := by
  unfold sjfStep
  split
  · rename_i idx hsel
    obtain ⟨p, hp, hok, _⟩ := scanMin_select hsel
    simp only [Bool.and_eq_true, decide_eq_true_eq] at hok
    rw [hp]
    apply writeOnce_updateAt
    intro p1 hp1
    rw [hp] at hp1
    cases hp1
    have := (hs.2.2 p (List.getElem?_mem hp)).1
    have := hs.1
    exact Or.inr ⟨hok.2, by simp only; omega⟩
  · exact writeOnce_refl _

theorem priorityStep_writeOnce (s : SchedState) (hs : NonPreInv s) :
    WriteOnce s.processes (priorityStep s).processes := by
  unfold priorityStep
  split
  · rename_i idx hsel
    obtain ⟨p, hp, hok, _⟩ := scanMin_select hsel
    simp only [Bool.and_eq_true, decide_eq_true_eq] at hok
    rw [hp]
    apply writeOnce_updateAt
    intro p1 hp1
    rw [hp] at hp1
    cases hp1
    have := (hs.2.2 p (List.getElem?_mem hp)).1
    have := hs.1
    exact Or.inr ⟨hok.2, by simp only; omega⟩
  · exact writeOnce_refl _

theorem srtfUnset_init (ps : List Process) (h : ∀ p ∈ ps, Fresh p) :
    SrtfUnset (schedInit ps) :=
  fun p hp _ => (h p hp).2.2.1

theorem srtfStep_unset (s : SchedState) (hs : SrtfInv s ∧ SrtfUnset s) :
    (SrtfInv (srtfStep s) ∧ SrtfUnset (srtfStep s)) ∧
    WriteOnce s.processes (srtfStep s).processes := by
  obtain ⟨hinv, hun⟩ := hs
  refine ⟨⟨srtfStep_srtfInv s hinv, ?_⟩, ?_⟩
  · unfold srtfStep
    split
    · rename_i idx hsel
      obtain ⟨p, hp, hok, _⟩ := scanMin_select hsel
      simp only [Bool.and_eq_true, decide_eq_true_eq, gt_iff_lt] at hok
      rw [hp]
      have hc := hun p (List.getElem?_mem hp) hok.2
      simp only
      split
      · rename_i hz
        apply forall_mem_updateAt hun
        intro p1 hp1 hpos
        simp only at hpos
        rw [hp] at hp1
        cases hp1
        omega
      · apply forall_mem_updateAt hun
        intro p1 hp1 _
        rw [hp] at hp1
        cases hp1
        exact hc
    · exact hun
  · unfold srtfStep
    split
    · rename_i idx hsel
      obtain ⟨p, hp, hok, _⟩ := scanMin_select hsel
      simp only [Bool.and_eq_true, decide_eq_true_eq, gt_iff_lt] at hok
      rw [hp]
      have hc := hun p (List.getElem?_mem hp) hok.2
      have ht := hinv.1
      simp only
      split
      · apply writeOnce_updateAt
        intro p1 hp1
        rw [hp] at hp1
        cases hp1
        exact Or.inr ⟨hc, by simp only; omega⟩
      · apply writeOnce_updateAt
        intro p1 hp1
        exact Or.inl rfl
    · exact writeOnce_refl _

theorem rrStep_nil (quantum : Int) (s : RRState) (h : s.readyQueue = []) :
    rrStep quantum s = s := by
  unfold rrStep
  rw [h]

/-- Under the invariant the admission scan adds nothing, and an iteration of
`roundRobin` on the queue `idx :: rest` either rotates `idx` to the back
after a full quantum or completes it and drops it. -/
theorem rrStep_of_inv (quantum : Int) (s : RRState) (hs : RRInv s) (idx : Nat)
    (rest : List Nat) (hqueue : s.readyQueue = idx :: rest) :
    ∃ p, s.processes[idx]? = some p ∧ 0 < p.remainingTime ∧ idx ∉ rest ∧
      rrStep quantum s =
        if p.remainingTime > quantum then
          { processes :=
              updateAt (fun q => { q with remainingTime := q.remainingTime - quantum })
                s.processes idx
            readyQueue := rest ++ [idx]
            time := s.time + quantum
            completed := s.completed }
        else
          { processes :=
              updateAt (fun q => { q with remainingTime := 0,
                                          completionTime := s.time + p.remainingTime })
                s.processes idx
            readyQueue := rest
            time := s.time + p.remainingTime
            completed := s.completed + 1 } := by
  obtain ⟨procs, queue, time, completed⟩ := s
  obtain ⟨ht, hnd, hrange, hall⟩ := hs
  simp only at hqueue
  subst hqueue
  simp only at ht hnd hrange hall
  have hidx : idx < procs.length := hrange idx (List.mem_cons_self _ _)
  obtain ⟨p, hp⟩ : ∃ p, procs[idx]? = some p := ⟨procs[idx], List.getElem?_eq_getElem hidx⟩
  have hprem : 0 < p.remainingTime := (hall idx p hp).1 (List.mem_cons_self _ _)
  have hnotin : idx ∉ rest := (List.nodup_cons.mp hnd).1
  refine ⟨p, hp, hprem, hnotin, ?_⟩
  simp only [rrStep, hp]
  split
  · have hscan : rrAdmit idx (time + quantum)
        (updateAt (fun q => { q with remainingTime := q.remainingTime - quantum }) procs idx)
        0 rest = rest := by
      apply rrAdmit_noop
      intro j p1 hp1 h1 h2
      simp only [Nat.zero_add] at h1 h2
      rw [getElem?_updateAt, if_neg h1] at hp1
      exact ne_of_gt ((hall j p1 hp1).2 (by simp [h1, h2])).2
    rw [hscan]
  · rfl

theorem rrUnset_init (ps : List Process)
    (h : ∀ p ∈ ps, 0 < p.burstTime ∧ p.completionTime = 0 ∧ p.remainingTime = p.burstTime) :
    RRUnset (rrInit ps) :=
  fun _ p hp _ => (h p (List.getElem?_mem hp)).2.1

theorem rrStep_unset (quantum : Int) (hq : 0 < quantum) (s : RRState)
    (hs : RRInv s ∧ RRUnset s) :
    (RRInv (rrStep quantum s) ∧ RRUnset (rrStep quantum s)) ∧
    WriteOnce s.processes (rrStep quantum s).processes := by
  obtain ⟨hinv, hun⟩ := hs
  refine ⟨⟨(rrStep_inv quantum hq s hinv).1, ?_⟩, ?_⟩
  · cases hqueue : s.readyQueue with
    | nil => rw [rrStep_nil quantum s hqueue]; exact hun
    | cons idx rest =>
      obtain ⟨p, hp, hprem, hnotin, hstep⟩ := rrStep_of_inv quantum s hinv idx rest hqueue
      rw [hstep]
      have hc : p.completionTime = 0 := hun idx p hp (by simp [hqueue])
      split
      · intro i p1 hp1 hi
        simp only at hp1 hi
        rw [getElem?_updateAt] at hp1
        by_cases hidx : i = idx
        · subst hidx
          rw [if_pos rfl, hp] at hp1
          simp only [Option.map_some', Option.some.injEq] at hp1
          subst hp1
          exact hc
        · rw [if_neg hidx] at hp1
          refine hun i p1 hp1 ?_
          rw [hqueue]
          simp only [List.mem_append, List.mem_singleton] at hi
          rcases hi with hi | hi
          · exact List.mem_cons_of_mem _ hi
          · exact absurd hi hidx
      · intro i p1 hp1 hi
        simp only at hp1 hi
        rw [getElem?_updateAt] at hp1
        have hidx : i ≠ idx := fun h => hnotin (h ▸ hi)
        rw [if_neg hidx] at hp1
        exact hun i p1 hp1 (by rw [hqueue]; exact List.mem_cons_of_mem _ hi)
  · cases hqueue : s.readyQueue with
    | nil => rw [rrStep_nil quantum s hqueue]; exact writeOnce_refl _
    | cons idx rest =>
      obtain ⟨p, hp, hprem, hnotin, hstep⟩ := rrStep_of_inv quantum s hinv idx rest hqueue
      rw [hstep]
      have hc : p.completionTime = 0 := hun idx p hp (by simp [hqueue])
      have ht := hinv.1
      split
      · apply writeOnce_updateAt
        intro p1 _
        exact Or.inl rfl
      · apply writeOnce_updateAt
        intro p1 hp1
        rw [hp] at hp1
        cases hp1
        exact Or.inr ⟨hc, by simp only; omega⟩

/-! ## srtf: unit steps -/

theorem whileLoop_iterate {σ : Type} {done : σ → Bool} {body : σ → σ} :
    ∀ (fuel : Nat) (s s1 : σ), whileLoop done body fuel s = some s1 →
      ∃ k, k ≤ fuel ∧ s1 = iterate body k s := by
  intro fuel
  induction fuel with
  | zero =>
    intro s s1 h
    unfold whileLoop at h
    split at h
    · cases h; exact ⟨0, le_refl _, rfl⟩
    · cases h
  | succ n ih =>
    intro s s1 h
    unfold whileLoop at h
    split at h
    · cases h; exact ⟨0, Nat.zero_le _, rfl⟩
    · obtain ⟨k, hk, hs⟩ := ih (body s) s1 h
      exact ⟨k + 1, by omega, hs⟩

theorem srtfStep_of_select {s : SchedState} {idx : Nat} {p : Process}
    (hsel : srtfSelect s = some idx) (hp : s.processes[idx]? = some p) :
    srtfStep s =
      if p.remainingTime - 1 = 0 then
        { processes := updateAt (fun q => { q with remainingTime := q.remainingTime - 1,
                                                   completionTime := s.time + 1 }) s.processes idx
          time := s.time + 1
          completed := s.completed + 1 }
      else
        { processes := updateAt (fun q => { q with remainingTime := q.remainingTime - 1 })
            s.processes idx
          time := s.time + 1
          completed := s.completed } := by
  unfold srtfStep
  rw [hsel]
  simp only [hp]

theorem srtfStep_of_none {s : SchedState} (hsel : srtfSelect s = none) :
    srtfStep s = { s with time := s.time + 1 } := by
  unfold srtfStep
  rw [hsel]

theorem srtfStep_time (s : SchedState) : (srtfStep s).time = s.time + 1 := by
  cases hsel : srtfSelect s with
  | none => rw [srtfStep_of_none hsel]
  | some idx =>
    obtain ⟨p, hp, _, _⟩ := scanMin_select hsel
    rw [srtfStep_of_select hsel hp]
    split <;> rfl

/-- What one iteration of `srtf` does to the record at position `i`: the
remaining time drops by 1 if `i` is the selected index and stays otherwise,
and the completion time becomes the new clock if `i` is selected with one
unit left and stays otherwise. -/
theorem srtfStep_at (s : SchedState) (i : Nat) (p : Process)
    (hp : s.processes[i]? = some p) :
    ∃ q, (srtfStep s).processes[i]? = some q ∧
      q.remainingTime =
        (if srtfSelect s = some i then p.remainingTime - 1 else p.remainingTime) ∧
      q.completionTime =
        (if srtfSelect s = some i ∧ p.remainingTime - 1 = 0 then s.time + 1
          else p.completionTime) := by
  cases hsel : srtfSelect s with
  | none =>
    rw [srtfStep_of_none hsel]
    exact ⟨p, hp, by simp, by simp⟩
  | some idx =>
    obtain ⟨p0, hp0, _, _⟩ := scanMin_select hsel
    rw [srtfStep_of_select hsel hp0]
    by_cases hi : i = idx
    · subst hi
      rw [hp] at hp0
      cases hp0
      split
      · rename_i hz
        refine ⟨_, by rw [getElem?_updateAt, if_pos rfl, hp]; rfl, ?_, ?_⟩
        · simp
        · simp [hz]
      · rename_i hz
        refine ⟨_, by rw [getElem?_updateAt, if_pos rfl, hp]; rfl, ?_, ?_⟩
        · simp
        · simp [hz]
    · have hne : ¬ (some idx = some i) := fun h => hi (Option.some.inj h).symm
      split
      · refine ⟨p, by simp only [getElem?_updateAt, if_neg hi, hp], ?_, ?_⟩
        · simp [hne]
        · simp [hne]
      · refine ⟨p, by simp only [getElem?_updateAt, if_neg hi, hp], ?_, ?_⟩
        · simp [hne]
        · simp [hne]

/-- The remaining time after `k` iterations of `srtf` is the remaining time
before them minus the number of iterations that selected the record. -/
theorem srtf_remaining_executed (i : Nat) :
    ∀ (k : Nat) (s : SchedState) (p : Process), s.processes[i]? = some p →
      ∃ q, (iterate srtfStep k s).processes[i]? = some q ∧
        q.remainingTime = p.remainingTime - (srtfExecuted i k s : Int) := by
  intro k
  induction k with
  | zero =>
    intro s p hp
    exact ⟨p, hp, by simp [srtfExecuted]⟩
  | succ n ih =>
    intro s p hp
    obtain ⟨q1, hq1, hrem, _⟩ := srtfStep_at s i p hp
    obtain ⟨q, hq, hq2⟩ := ih (srtfStep s) q1 hq1
    refine ⟨q, hq, ?_⟩
    rw [hq2, hrem]
    simp only [srtfExecuted]
    split <;> push_cast <;> omega

/-- C13: on fresh valid input, in the iteration of `srtf` that follows any
number `k` of iterations the clock advances by exactly 1; the remaining time
of the selected index, and of no other, drops, by exactly 1; every remaining
time is within `0..burstTime` before and after; and the completion time of a
record becomes the new clock exactly when its remaining time goes from
nonzero to `0`, and stays otherwise.  Every run that ends is the state after
some `k` iterations, in which every record has remaining time `0` and was
selected in exactly `burstTime` of the `k` iterations. -/
theorem srtf_unit_steps (ps : List Process) (hfresh : ∀ p ∈ ps, Fresh p) :
    (∀ (k : Nat) (s : SchedState), s = iterate srtfStep k (schedInit ps) →
      (srtfStep s).time = s.time + 1 ∧
      ∀ (i : Nat) (p : Process), s.processes[i]? = some p →
        0 ≤ p.remainingTime ∧ p.remainingTime ≤ p.burstTime ∧
        ∃ q, (srtfStep s).processes[i]? = some q ∧
          q.remainingTime =
            (if srtfSelect s = some i then p.remainingTime - 1 else p.remainingTime) ∧
          0 ≤ q.remainingTime ∧ q.remainingTime ≤ q.burstTime ∧
          q.completionTime =
            (if p.remainingTime ≠ 0 ∧ q.remainingTime = 0 then (srtfStep s).time
              else p.completionTime)) ∧
    (∀ (fuel : Nat) (r : List Process), srtf fuel ps = some r →
      ∃ k, k ≤ fuel ∧ r = (iterate srtfStep k (schedInit ps)).processes ∧
        ∀ (i : Nat) (p : Process), ps[i]? = some p →
          ∃ q, r[i]? = some q ∧ q.remainingTime = 0 ∧
            (srtfExecuted i k (schedInit ps) : Int) = p.burstTime) := by
  constructor
  · intro k s hs
    have hinv : SrtfInv s := by
      rw [hs]
      exact iterate_invariant SrtfInv srtfStep_srtfInv k _ (srtfInv_init ps hfresh)
    have hinv1 := srtfStep_srtfInv s hinv
    refine ⟨srtfStep_time s, ?_⟩
    intro i p hp
    obtain ⟨_, _, hp0, hp1, _, _⟩ := hinv.2.2 p (List.getElem?_mem hp)
    obtain ⟨q, hq, hrem, hcomp⟩ := srtfStep_at s i p hp
    obtain ⟨_, _, hq0, hq1, _, _⟩ := hinv1.2.2 q (List.getElem?_mem hq)
    refine ⟨hp0, hp1, q, hq, hrem, hq0, hq1, ?_⟩
    rw [hcomp, srtfStep_time]
    by_cases hsel : srtfSelect s = some i
    · rw [if_pos hsel] at hrem
      by_cases hz : p.remainingTime - 1 = 0
      · rw [if_pos ⟨hsel, hz⟩, if_pos ⟨by omega, by omega⟩]
      · rw [if_neg (fun h => hz h.2), if_neg (fun h => hz (by omega))]
    · rw [if_neg hsel] at hrem
      rw [if_neg (fun h => hsel h.1), if_neg (fun h => h.1 (by omega))]
  · intro fuel r h
    obtain ⟨s1, hs1, hr⟩ := srtf_result h
    obtain ⟨k, hk, hiter⟩ := whileLoop_iterate fuel _ s1 hs1
    refine ⟨k, hk, by rw [← hr, hiter], ?_⟩
    intro i p hp
    obtain ⟨q, hq, hrem⟩ := srtf_remaining_executed i k (schedInit ps) p hp
    rw [← hiter, hr] at hq
    have hz := (srtf_completion_bound ps hfresh fuel r h q (List.getElem?_mem hq)).1
    have := (hfresh p (List.getElem?_mem hp)).2.2.2
    exact ⟨q, hq, hz, by omega⟩

/-- C13 on P1(0,8), P2(1,4), P3(2,9), P4(3,5), where `srtf` ends after 26
iterations: at the fifth iteration P2, with one unit left, is selected,
reaches remaining time 0 and gets completion time 5. -/
theorem srtf_unit_steps_witness :
    (∀ p ∈ exampleFour, Fresh p) ∧ (srtf 26 exampleFour).isSome = true ∧
    srtfSelect (iterate srtfStep 4 (schedInit exampleFour)) = some 1 ∧
    (srtfStep (iterate srtfStep 4 (schedInit exampleFour))).time =
      (iterate srtfStep 4 (schedInit exampleFour)).time + 1 ∧
    (srtfStep (iterate srtfStep 4 (schedInit exampleFour))).processes.map
      (fun p => (p.remainingTime, p.completionTime)) = [(7, 0), (0, 5), (9, 0), (5, 0)] :=
  ⟨by decide, by decide, by decide,
    ((srtf_unit_steps exampleFour (by decide)).1 4 _ rfl).1, by decide⟩

/-! ## roundRobin does not read arrival times -/

theorem fcfsLoop_start_ge (ps : List Process) (time : Int) (h : ∀ p ∈ ps, 0 ≤ p.burstTime) :
    ∀ q ∈ fcfsLoop ps time, time ≤ q.completionTime - q.burstTime := by
  induction ps generalizing time with
  | nil => intro q hq; simp [fcfsLoop] at hq
  | cons a as ih =>
    intro q hq
    have ha := h a (List.mem_cons_self _ _)
    simp only [fcfsLoop, List.mem_cons] at hq
    rcases hq with hq | hq
    · subst hq
      simp only
      split <;> omega
    · have := ih _ (fun p hp => h p (List.mem_cons_of_mem _ hp)) q hq
      split at this <;> omega

/-- In the result of the `fcfs` pass, a record ends no later than any record
after it starts. -/
theorem fcfsLoop_ordered (ps : List Process) (time : Int) (h : ∀ p ∈ ps, 0 ≤ p.burstTime)
    (i j : Nat) (p q : Process) (hij : i < j) (hp : (fcfsLoop ps time)[i]? = some p)
    (hq : (fcfsLoop ps time)[j]? = some q) :
    p.completionTime ≤ q.completionTime - q.burstTime := by
  induction ps generalizing time i j with
  | nil => simp [fcfsLoop] at hp
  | cons a as ih =>
    have has : ∀ p ∈ as, 0 ≤ p.burstTime := fun p hp => h p (List.mem_cons_of_mem _ hp)
    cases j with
    | zero => omega
    | succ j =>
      simp only [fcfsLoop, List.getElem?_cons_succ] at hq
      cases i with
      | zero =>
        simp only [fcfsLoop, List.getElem?_cons_zero, Option.some.injEq] at hp
        subst hp
        exact fcfsLoop_start_ge as _ has q (List.getElem?_mem hq)
      | succ i =>
        simp only [fcfsLoop, List.getElem?_cons_succ] at hp
        exact ih _ has i j (by omega) hp hq

theorem apartInv_init (ps : List Process) (h : ∀ p ∈ ps, Fresh p) :
    ApartInv (schedInit ps) := by
  refine ⟨nonPreInv_init ps h, ?_, ?_⟩
  · intro p hp hne
    exact absurd (h p hp).2.2.1 hne
  · intro i j p q _ hp _ hne
    exact absurd (h p (List.getElem?_mem hp)).2.2.1 hne

/-- Running the selected record to completion keeps the intervals apart. -/
theorem apartInv_complete {s : SchedState} {idx : Nat} {p : Process} (hs : ApartInv s)
    (hp : s.processes[idx]? = some p) (harr : p.arrivalTime ≤ s.time)
    (hc : p.completionTime = 0) :
    ApartInv
      { processes :=
          updateAt (fun q => { q with completionTime := s.time + p.burstTime }) s.processes idx
        time := s.time + p.burstTime
        completed := s.completed + 1 } := by
  obtain ⟨hnon, hclock, hapart⟩ := hs
  have hpb := (hnon.2.2 p (List.getElem?_mem hp)).1
  refine ⟨nonPreInv_complete hnon hp harr hc, ?_, ?_⟩
  · simp only
    apply forall_mem_updateAt
    · intro q hq hne
      have := hclock q hq hne
      omega
    · intro p1 hp1 _
      simp only
      omega
  · intro i j p1 q1 hij hp1 hq1 hne1 hne2
    simp only at hp1 hq1
    rw [getElem?_updateAt] at hp1 hq1
    by_cases hi : i = idx
    · have hj : j ≠ idx := fun h => hij (hi.trans h.symm)
      rw [if_pos hi, hi, hp] at hp1
      rw [if_neg hj] at hq1
      simp only [Option.map_some', Option.some.injEq] at hp1
      subst hp1
      have := hclock q1 (List.getElem?_mem hq1) hne2
      exact Or.inr (by simp only; omega)
    · rw [if_neg hi] at hp1
      by_cases hj : j = idx
      · rw [if_pos hj, hj, hp] at hq1
        simp only [Option.map_some', Option.some.injEq] at hq1
        subst hq1
        have := hclock p1 (List.getElem?_mem hp1) hne1
        exact Or.inl (by simp only; omega)
      · rw [if_neg hj] at hq1
        exact hapart i j p1 q1 hij hp1 hq1 hne1 hne2

theorem apartInv_idle {s : SchedState} (hs : ApartInv s) :
    ApartInv { s with time := s.time + 1 } := by
  obtain ⟨hnon, hclock, hapart⟩ := hs
  refine ⟨nonPreInv_idle hnon, ?_, hapart⟩
  intro p hp hne
  have := hclock p hp hne
  simp only
  omega

theorem sjfStep_apartInv (s : SchedState) (hs : ApartInv s) : ApartInv (sjfStep s) := by
  unfold sjfStep
  split
  · rename_i idx hsel
    obtain ⟨p, hp, hok, _⟩ := scanMin_select hsel
    simp only [Bool.and_eq_true, decide_eq_true_eq] at hok
    rw [hp]
    exact apartInv_complete hs hp hok.1 hok.2
  · exact apartInv_idle hs

theorem priorityStep_apartInv (s : SchedState) (hs : ApartInv s) :
    ApartInv (priorityStep s) := by
  unfold priorityStep
  split
  · rename_i idx hsel
    obtain ⟨p, hp, hok, _⟩ := scanMin_select hsel
    simp only [Bool.and_eq_true, decide_eq_true_eq] at hok
    rw [hp]
    exact apartInv_complete hs hp hok.1 hok.2
  · exact apartInv_idle hs

/-- When the loop condition is false under the invariant, every record
starts no earlier than it arrives and the intervals are pairwise disjoint. -/
theorem apartInv_done {s : SchedState} (hs : ApartInv s) (hd : schedDone s = true) :
    (∀ p ∈ s.processes, p.arrivalTime ≤ p.completionTime - p.burstTime) ∧
    ∀ (i j : Nat) (p q : Process), i ≠ j → s.processes[i]? = some p →
      s.processes[j]? = some q → RunsApart p q := by
  have hall := nonPreInv_done hs.1 hd
  refine ⟨fun p hp => by have := (hall p hp).2; omega, ?_⟩
  intro i j p q hij hp hq
  exact hs.2.2 i j p q hij hp hq (hall p (List.getElem?_mem hp)).1
    (hall q (List.getElem?_mem hq)).1

/-- In the result of `fcfs` on unbounded integers every record starts no
earlier than it arrives and the execution intervals are pairwise disjoint. -/
theorem fcfs_apart (ps : List Process) (hb : ∀ p ∈ ps, 0 ≤ p.burstTime) :
    (∀ p ∈ fcfs ps, p.arrivalTime ≤ p.completionTime - p.burstTime) ∧
    ∀ (i j : Nat) (p q : Process), i ≠ j → (fcfs ps)[i]? = some p →
      (fcfs ps)[j]? = some q → RunsApart p q := by
  refine ⟨fun p hp => ?_, fun i j p q hij hp hq => ?_⟩
  · have := fcfsLoop_completion ps 0 p hp
    omega
  · rcases Nat.lt_or_gt_of_ne hij with hlt | hgt
    · exact Or.inl (fcfsLoop_ordered ps 0 hb i j p q hlt hp hq)
    · exact Or.inr (fcfsLoop_ordered ps 0 hb j i q p hgt hq hp)

theorem sjf_apart (ps : List Process) (hfresh : ∀ p ∈ ps, Fresh p) (fuel : Nat)
    (r : List Process) (h : sjf fuel ps = some r) :
    (∀ p ∈ r, p.arrivalTime ≤ p.completionTime - p.burstTime) ∧
    ∀ (i j : Nat) (p q : Process), i ≠ j → r[i]? = some p → r[j]? = some q →
      RunsApart p q := by
  obtain ⟨s, hs, rfl⟩ := sjf_result h
  obtain ⟨hinv, hd⟩ := whileLoop_invariant ApartInv
    (fun s hs _ => sjfStep_apartInv s hs) fuel _ s (apartInv_init ps hfresh) hs
  exact apartInv_done hinv hd

theorem priority_apart (ps : List Process) (hfresh : ∀ p ∈ ps, Fresh p) (fuel : Nat)
    (r : List Process) (h : priorityScheduling fuel ps = some r) :
    (∀ p ∈ r, p.arrivalTime ≤ p.completionTime - p.burstTime) ∧
    ∀ (i j : Nat) (p q : Process), i ≠ j → r[i]? = some p → r[j]? = some q →
      RunsApart p q := by
  obtain ⟨s, hs, rfl⟩ := priorityScheduling_result h
  obtain ⟨hinv, hd⟩ := whileLoop_invariant ApartInv
    (fun s hs _ => priorityStep_apartInv s hs) fuel _ s (apartInv_init ps hfresh) hs
  exact apartInv_done hinv hd

/-! ## roundRobin with a large quantum is fcfs -/

/-- The state a loop ends in does not depend on the fuel. -/
theorem whileLoop_unique {σ : Type} {done : σ → Bool} {body : σ → σ} :
    ∀ (f1 f2 : Nat) (s a b : σ), whileLoop done body f1 s = some a →
      whileLoop done body f2 s = some b → a = b := by
  intro f1
  induction f1 with
  | zero =>
    intro f2 s a b h1 h2
    unfold whileLoop at h1
    split at h1
    · rename_i hd
      cases h1
      cases f2 with
      | zero => unfold whileLoop at h2; rw [if_pos hd] at h2; cases h2; rfl
      | succ m => unfold whileLoop at h2; rw [if_pos hd] at h2; cases h2; rfl
    · cases h1
  | succ n ih =>
    intro f2 s a b h1 h2
    unfold whileLoop at h1
    split at h1
    · rename_i hd
      cases h1
      cases f2 with
      | zero => unfold whileLoop at h2; rw [if_pos hd] at h2; cases h2; rfl
      | succ m => unfold whileLoop at h2; rw [if_pos hd] at h2; cases h2; rfl
    · rename_i hd
      cases f2 with
      | zero => unfold whileLoop at h2; rw [if_neg hd] at h2; cases h2
      | succ m =>
        unfold whileLoop at h2
        rw [if_neg hd] at h2
        exact ih m (body s) a b h1 h2

theorem updateAt_congr (f g : Process → Process) (l : List Process) (i : Nat)
    (h : ∀ x, l[i]? = some x → f x = g x) : updateAt f l i = updateAt g l i := by
  induction l generalizing i with
  | nil => rfl
  | cons a as ih =>
    cases i with
    | zero => simp [updateAt, h a (by simp)]
    | succ i => simp [updateAt, ih i (fun x hx => h x (by simpa using hx))]

theorem wrap32_eq (x : Int) (h1 : INT_MIN ≤ x) (h2 : x ≤ INT_MAX) : wrap32 x = x := by
  unfold INT_MIN at h1
  unfold INT_MAX at h2
  unfold wrap32
  omega

theorem iterate_succ_apply {σ : Type} (body : σ → σ) (k : Nat) (s : σ) :
    iterate body (k + 1) s = body (iterate body k s) := by
  induction k generalizing s with
  | zero => rfl
  | succ n ih =>
    show iterate body (n + 1) (body s) = body (iterate body n (body s))
    exact ih (body s)

/-- A machine loop body that agrees with the exact body wherever the exact
result is in range is in the same state after `k` iterations, when the exact
states of the first `k` iterations are in range. -/
theorem iterate_bridge {σ : Type} {step step32 : σ → σ} (Inv ok : σ → Prop)
    (hinv : ∀ s, Inv s → Inv (step s))
    (heq : ∀ s, Inv s → ok (step s) → step32 s = step s) :
    ∀ (k : Nat) (s : σ), Inv s → (∀ j, j ≤ k → ok (iterate step j s)) →
      iterate step32 k s = iterate step k s := by
  intro k
  induction k with
  | zero => intro s _ _; rfl
  | succ n ih =>
    intro s hs hok
    have h1 : step32 s = step s := heq s hs (hok 1 (by omega))
    show iterate step32 n (step32 s) = iterate step n (step s)
    rw [h1]
    exact ih (step s) (hinv s hs) (fun j hj => hok (j + 1) (by omega))

/-- The same for a `while` loop run under fuel. -/
theorem whileLoop_bridge {σ : Type} {done : σ → Bool} {step step32 : σ → σ}
    (Inv ok : σ → Prop) (hinv : ∀ s, Inv s → Inv (step s))
    (heq : ∀ s, Inv s → ok (step s) → step32 s = step s) :
    ∀ (fuel : Nat) (s : σ), Inv s → (∀ j, j ≤ fuel → ok (iterate step j s)) →
      whileLoop done step32 fuel s = whileLoop done step fuel s := by
  intro fuel
  induction fuel with
  | zero => intro s _ _; rfl
  | succ n ih =>
    intro s hs hok
    have h1 : step32 s = step s := heq s hs (hok 1 (by omega))
    unfold whileLoop
    rw [h1, ih (step s) (hinv s hs) (fun j hj => hok (j + 1) (by omega))]

theorem fcfsStep32_eq (s : FcfsState) (hs : FcfsInv s)
    (hok : (fcfsStep s).time ≤ INT_MAX) : fcfsStep32 s = fcfsStep s := by
  unfold fcfsStep at hok ⊢
  unfold fcfsStep32
  cases hp : s.processes[s.pos]? with
  | none => rfl
  | some p =>
    rw [hp] at hok
    simp only at hok ⊢
    have hb := (hs.2 s.pos p hp).1
    have ht := hs.1
    have hw : wrap32 ((if s.time < p.arrivalTime then p.arrivalTime else s.time) + p.burstTime) =
        (if s.time < p.arrivalTime then p.arrivalTime else s.time) + p.burstTime := by
      apply wrap32_eq _ _ hok
      unfold INT_MIN
      split <;> omega
    rw [hw]

theorem sjfStep32_eq (s : SchedState) (hs : NonPreInv s)
    (hok : (sjfStep s).time ≤ INT_MAX) : sjfStep32 s = sjfStep s := by
  unfold sjfStep at hok ⊢
  unfold sjfStep32
  have ht := hs.1
  cases hsel : sjfSelect s with
  | none =>
    rw [hsel] at hok
    simp only at hok ⊢
    rw [wrap32_eq _ (by unfold INT_MIN; omega) hok]
  | some idx =>
    cases hp : s.processes[idx]? with
    | none => simp only [hp]
    | some p =>
      rw [hsel] at hok
      simp only [hp] at hok ⊢
      have hb := (hs.2.2 p (List.getElem?_mem hp)).1
      rw [wrap32_eq _ (by unfold INT_MIN; omega) hok]

theorem priorityStep32_eq (s : SchedState) (hs : NonPreInv s)
    (hok : (priorityStep s).time ≤ INT_MAX) : priorityStep32 s = priorityStep s := by
  unfold priorityStep at hok ⊢
  unfold priorityStep32
  have ht := hs.1
  cases hsel : prioritySelect s with
  | none =>
    rw [hsel] at hok
    simp only at hok ⊢
    rw [wrap32_eq _ (by unfold INT_MIN; omega) hok]
  | some idx =>
    cases hp : s.processes[idx]? with
    | none => simp only [hp]
    | some p =>
      rw [hsel] at hok
      simp only [hp] at hok ⊢
      have hb := (hs.2.2 p (List.getElem?_mem hp)).1
      rw [wrap32_eq _ (by unfold INT_MIN; omega) hok]

theorem srtfStep_burst_le (s : SchedState) (h : ∀ p ∈ s.processes, p.burstTime ≤ INT_MAX) :
    ∀ p ∈ (srtfStep s).processes, p.burstTime ≤ INT_MAX := by
  unfold srtfStep
  split
  · split
    · simp only
      split
      · exact forall_mem_updateAt h (fun p hp => h p (List.getElem?_mem hp))
      · exact forall_mem_updateAt h (fun p hp => h p (List.getElem?_mem hp))
    · exact h
  · exact h

theorem srtfStep32_eq (s : SchedState) (hs : SrtfInv s)
    (hb : ∀ p ∈ s.processes, p.burstTime ≤ INT_MAX) (hok : (srtfStep s).time ≤ INT_MAX) :
    srtfStep32 s = srtfStep s := by
  rw [srtfStep_time] at hok
  have ht := hs.1
  have hw1 : wrap32 (s.time + 1) = s.time + 1 :=
    wrap32_eq _ (by unfold INT_MIN; omega) hok
  unfold srtfStep32 srtfStep
  cases hsel : srtfSelect s with
  | none =>
    simp only
    rw [hw1]
  | some idx =>
    cases hp : s.processes[idx]? with
    | none => simp only [hp]
    | some p =>
      obtain ⟨p1, hp1, hsel_ok, _⟩ := scanMin_select hsel
      rw [hp] at hp1
      cases hp1
      simp only [Bool.and_eq_true, decide_eq_true_eq, gt_iff_lt] at hsel_ok
      obtain ⟨_, _, _, hrb, _, _⟩ := hs.2.2 p (List.getElem?_mem hp)
      have hpb := hb p (List.getElem?_mem hp)
      have hw2 : wrap32 (p.remainingTime - 1) = p.remainingTime - 1 :=
        wrap32_eq _ (by unfold INT_MIN; omega) (by omega)
      have hf1 : updateAt (fun q => { q with remainingTime := wrap32 (q.remainingTime - 1),
                                             completionTime := s.time + 1 }) s.processes idx =
          updateAt (fun q => { q with remainingTime := q.remainingTime - 1,
                                      completionTime := s.time + 1 }) s.processes idx := by
        apply updateAt_congr
        intro x hx
        rw [hp] at hx
        cases hx
        simp only [hw2]
      have hf2 : updateAt (fun q => { q with remainingTime := wrap32 (q.remainingTime - 1) })
            s.processes idx =
          updateAt (fun q => { q with remainingTime := q.remainingTime - 1 })
            s.processes idx := by
        apply updateAt_congr
        intro x hx
        rw [hp] at hx
        cases hx
        simp only [hw2]
      simp only [hp, hw1, hw2, hf1, hf2]

theorem rrStep_remaining_le (quantum : Int) (hq : 0 < quantum) (s : RRState)
    (h : ∀ p ∈ s.processes, p.remainingTime ≤ INT_MAX) :
    ∀ p ∈ (rrStep quantum s).processes, p.remainingTime ≤ INT_MAX := by
  unfold rrStep
  split
  · exact h
  · split
    · simp only
      split
      · apply forall_mem_updateAt h
        intro p hp
        have := h p (List.getElem?_mem hp)
        simp only
        omega
      · apply forall_mem_updateAt h
        intro p _
        simp only
        unfold INT_MAX
        omega
    · exact h

theorem rrStep32_eq (quantum : Int) (hq : 0 < quantum) (s : RRState) (hs : RRInv s)
    (hb : ∀ p ∈ s.processes, p.remainingTime ≤ INT_MAX)
    (hok : (rrStep quantum s).time ≤ INT_MAX) : rrStep32 quantum s = rrStep quantum s := by
  obtain ⟨procs, queue, time, completed⟩ := s
  cases queue with
  | nil => rfl
  | cons idx rest =>
    have ht : 0 ≤ time := hs.1
    cases hp : procs[idx]? with
    | none => simp only [rrStep32, rrStep, hp]
    | some p =>
      have hprem : 0 < p.remainingTime := (hs.2.2.2 idx p hp).1 (List.mem_cons_self _ _)
      have hpb := hb p (List.getElem?_mem hp)
      by_cases hgt : p.remainingTime > quantum
      · simp only [rrStep, hp, if_pos hgt] at hok
        have hw1 : wrap32 (time + quantum) = time + quantum :=
          wrap32_eq _ (by unfold INT_MIN; omega) hok
        have hf : updateAt (fun q => { q with remainingTime := wrap32 (q.remainingTime - quantum) })
              procs idx =
            updateAt (fun q => { q with remainingTime := q.remainingTime - quantum })
              procs idx := by
          apply updateAt_congr
          intro x hx
          rw [hp] at hx
          cases hx
          rw [wrap32_eq _ (by unfold INT_MIN; omega) (by omega)]
        simp only [rrStep32, rrStep, hp, if_pos hgt, hw1, hf]
      · simp only [rrStep, hp, if_neg hgt] at hok
        have hw1 : wrap32 (time + p.remainingTime) = time + p.remainingTime :=
          wrap32_eq _ (by unfold INT_MIN; omega) hok
        simp only [rrStep32, rrStep, hp, if_neg hgt, hw1]

/-- On 32-bit integers `fcfs` computes what it computes on unbounded
integers when every exact completion time is at most `INT_MAX`. -/
theorem fcfsLoop32_eq (ps : List Process) (t : Int) (ht : 0 ≤ t)
    (hv : ∀ p ∈ ps, 0 < p.burstTime)
    (hok : ∀ p ∈ fcfsLoop ps t, p.completionTime ≤ INT_MAX) :
    fcfsLoop32 ps t = fcfsLoop ps t := by
  induction ps generalizing t with
  | nil => rfl
  | cons a as ih =>
    have hb := hv a (List.mem_cons_self _ _)
    have h1 : (if t < a.arrivalTime then a.arrivalTime else t) + a.burstTime ≤ INT_MAX :=
      hok { a with completionTime :=
        (if t < a.arrivalTime then a.arrivalTime else t) + a.burstTime }
        (by simp only [fcfsLoop]; exact List.mem_cons_self _ _)
    have hw : wrap32 ((if t < a.arrivalTime then a.arrivalTime else t) + a.burstTime) =
        (if t < a.arrivalTime then a.arrivalTime else t) + a.burstTime := by
      apply wrap32_eq _ _ h1
      unfold INT_MIN
      split <;> omega
    simp only [fcfsLoop32, fcfsLoop, hw]
    rw [ih _ (by split <;> omega) (fun p hp => hv p (List.mem_cons_of_mem _ hp))
      (fun p hp => hok p (by simp only [fcfsLoop, List.mem_cons]; exact Or.inr hp))]

/-- The position loop of `fcfs` on 32-bit integers produces what the
recursive pass `fcfsLoop32` produces. -/
theorem iterate_fcfsStep32 (rest done : List Process) (t : Int) :
    (iterate fcfsStep32 rest.length
      { processes := done ++ rest, time := t, pos := done.length }).processes =
      done ++ fcfsLoop32 rest t := by
  induction rest generalizing done t with
  | nil => simp [iterate, fcfsLoop32]
  | cons a as ih =>
    have hstep : ∀ c : Int,
        c = wrap32 ((if t < a.arrivalTime then a.arrivalTime else t) + a.burstTime) →
        fcfsStep32 { processes := done ++ a :: as, time := t, pos := done.length } =
          { processes := (done ++ [{ a with completionTime := c }]) ++ as
            time := c
            pos := (done ++ [{ a with completionTime := c }]).length } := by
      intro c hc
      subst hc
      unfold fcfsStep32
      simp only [getElem?_append_length, updateAt_append_length]
      simp
    simp only [List.length_cons, iterate]
    rw [hstep _ rfl, ih]
    simp [fcfsLoop32]

theorem iterate_fcfsStep32_eq_fcfs32 (ps : List Process) :
    (iterate fcfsStep32 ps.length (fcfsInit ps)).processes = fcfs32 ps := by
  have := iterate_fcfsStep32 ps [] 0
  simpa [fcfsInit, fcfs32] using this

/-- When the exact states of the first `k + 1` iterations are in range, the
machine loop is in the exact state after `k` iterations and its next
iteration is the exact one. -/
theorem bridge_at {σ : Type} {step step32 : σ → σ} (Inv ok : σ → Prop)
    (hinv : ∀ s, Inv s → Inv (step s))
    (heq : ∀ s, Inv s → ok (step s) → step32 s = step s) (k : Nat) (s : σ) (hs : Inv s)
    (hok : ∀ j, j ≤ k + 1 → ok (iterate step j s)) :
    iterate step32 k s = iterate step k s ∧
    step32 (iterate step32 k s) = step (iterate step k s) ∧ Inv (iterate step k s) := by
  have h1 : iterate step32 k s = iterate step k s :=
    iterate_bridge Inv ok hinv heq k s hs (fun j hj => hok j (by omega))
  have h2 : Inv (iterate step k s) := iterate_invariant Inv hinv k s hs
  refine ⟨h1, ?_, h2⟩
  rw [h1]
  apply heq _ h2
  rw [← iterate_succ_apply step k s]
  exact hok (k + 1) (le_refl _)

/-! ## Completion times are written once: the machine loops -/

/-- C11, refuted as stated: on the fresh valid input of one process with
arrival time 2147483647 = `INT_MAX` and burst time 1, `fcfs` on 32-bit
integers moves the clock to the arrival time, adds the burst time and writes
the wrapped sum -2147483648 as completion time: a written value below 1. -/
theorem completion_written_wraps :
    (∀ p ∈ arrivesLast, Fresh p) ∧
    (fcfs32 arrivesLast).map (fun p => p.completionTime) = [-2147483648] ∧
    (fcfsStep32 (fcfsInit arrivesLast)).processes.map (fun p => p.completionTime) =
      [-2147483648] ∧
    (∃ p ∈ fcfs32 arrivesLast, ¬ (p.completionTime = 0 ∨ 1 ≤ p.completionTime)) ∧
    ¬ WriteOnce (fcfsInit arrivesLast).processes
      (fcfsStep32 (fcfsInit arrivesLast)).processes := by
  refine ⟨by decide, by decide, by decide, by decide, ?_⟩
  intro h
  have h1 := h 0 (mkProcess 1 2147483647 1 0)
    { mkProcess 1 2147483647 1 0 with completionTime := -2147483648 } (by decide) (by decide)
  revert h1
  decide

/-- C11, amended: on fresh valid input whose burst times are at most
`INT_MAX`, with a positive quantum, for each of the five algorithms on 32-bit
integers and every `k`: if the clock the loop computes on unbounded integers
stays at most `INT_MAX` during the first `k + 1` iterations (no addition of
these iterations overflows), then in the iteration that follows the first `k`
every completion time is kept or goes from the unset value `0` to a value
`≥ 1`, and after it every completion time is `0` or `≥ 1`.  The position loop
of `fcfs` ends, after as many iterations as there are records, in the result
of `fcfs`. -/
theorem completion_written_once_in_range (ps : List Process) (quantum : Int)
    (hfresh : ∀ p ∈ ps, Fresh p) (hq : 0 < quantum)
    (hint : ∀ p ∈ ps, p.burstTime ≤ INT_MAX) :
    (∀ k, (∀ j, j ≤ k + 1 → (iterate fcfsStep j (fcfsInit ps)).time ≤ INT_MAX) →
      WriteOnce (iterate fcfsStep32 k (fcfsInit ps)).processes
        (fcfsStep32 (iterate fcfsStep32 k (fcfsInit ps))).processes ∧
      ∀ p ∈ (fcfsStep32 (iterate fcfsStep32 k (fcfsInit ps))).processes,
        p.completionTime = 0 ∨ 1 ≤ p.completionTime) ∧
    (iterate fcfsStep32 ps.length (fcfsInit ps)).processes = fcfs32 ps ∧
    (∀ k, (∀ j, j ≤ k + 1 → (iterate sjfStep j (schedInit ps)).time ≤ INT_MAX) →
      WriteOnce (iterate sjfStep32 k (schedInit ps)).processes
        (sjfStep32 (iterate sjfStep32 k (schedInit ps))).processes ∧
      ∀ p ∈ (sjfStep32 (iterate sjfStep32 k (schedInit ps))).processes,
        p.completionTime = 0 ∨ 1 ≤ p.completionTime) ∧
    (∀ k, (∀ j, j ≤ k + 1 → (iterate srtfStep j (schedInit ps)).time ≤ INT_MAX) →
      WriteOnce (iterate srtfStep32 k (schedInit ps)).processes
        (srtfStep32 (iterate srtfStep32 k (schedInit ps))).processes ∧
      ∀ p ∈ (srtfStep32 (iterate srtfStep32 k (schedInit ps))).processes,
        p.completionTime = 0 ∨ 1 ≤ p.completionTime) ∧
    (∀ k, (∀ j, j ≤ k + 1 → (iterate priorityStep j (schedInit ps)).time ≤ INT_MAX) →
      WriteOnce (iterate priorityStep32 k (schedInit ps)).processes
        (priorityStep32 (iterate priorityStep32 k (schedInit ps))).processes ∧
      ∀ p ∈ (priorityStep32 (iterate priorityStep32 k (schedInit ps))).processes,
        p.completionTime = 0 ∨ 1 ≤ p.completionTime) ∧
    (∀ k, (∀ j, j ≤ k + 1 → (iterate (rrStep quantum) j (rrInit ps)).time ≤ INT_MAX) →
      WriteOnce (iterate (rrStep32 quantum) k (rrInit ps)).processes
        (rrStep32 quantum (iterate (rrStep32 quantum) k (rrInit ps))).processes ∧
      ∀ p ∈ (rrStep32 quantum (iterate (rrStep32 quantum) k (rrInit ps))).processes,
        p.completionTime = 0 ∨ 1 ≤ p.completionTime) := by
  have hrr : ∀ p ∈ ps,
      0 < p.burstTime ∧ p.completionTime = 0 ∧ p.remainingTime = p.burstTime :=
    fun p hp => ⟨(hfresh p hp).1, (hfresh p hp).2.2⟩
  refine ⟨fun k hok => ?_, iterate_fcfsStep32_eq_fcfs32 ps, fun k hok => ?_, fun k hok => ?_,
    fun k hok => ?_, fun k hok => ?_⟩
  · obtain ⟨e1, e2, hinv⟩ := bridge_at FcfsInv (fun s => s.time ≤ INT_MAX)
      (fun s hs => (fcfsStep_inv s hs).1) fcfsStep32_eq k (fcfsInit ps)
      (fcfsInv_init ps hfresh) hok
    rw [e2, e1]
    refine ⟨(fcfsStep_inv _ hinv).2, fun p hp => ?_⟩
    obtain ⟨i, hi⟩ := List.mem_iff_getElem?.mp hp
    exact ((fcfsStep_inv _ hinv).1.2 i p hi).2.2
  · obtain ⟨e1, e2, hinv⟩ := bridge_at NonPreInv (fun s => s.time ≤ INT_MAX)
      sjfStep_nonPreInv sjfStep32_eq k (schedInit ps) (nonPreInv_init ps hfresh) hok
    rw [e2, e1]
    refine ⟨sjfStep_writeOnce _ hinv, fun p hp => ?_⟩
    obtain ⟨h1, h2, h3⟩ := (sjfStep_nonPreInv _ hinv).2.2 p hp
    rcases h3 with h3 | h3
    · exact Or.inl h3
    · exact Or.inr (by omega)
  · obtain ⟨e1, e2, hinv⟩ := bridge_at
      (fun s => (SrtfInv s ∧ SrtfUnset s) ∧ ∀ p ∈ s.processes, p.burstTime ≤ INT_MAX)
      (fun s => s.time ≤ INT_MAX)
      (fun s hs => ⟨(srtfStep_unset s hs.1).1, srtfStep_burst_le s hs.2⟩)
      (fun s hs h => srtfStep32_eq s hs.1.1 hs.2 h) k (schedInit ps)
      ⟨⟨srtfInv_init ps hfresh, srtfUnset_init ps hfresh⟩, hint⟩ hok
    rw [e2, e1]
    have hnext := (srtfStep_unset _ hinv.1).1
    refine ⟨(srtfStep_unset _ hinv.1).2, fun p hp => ?_⟩
    obtain ⟨h1, h2, h3, h4, h5, h6⟩ := hnext.1.2.2 p hp
    by_cases hz : p.remainingTime = 0
    · have := h6 hz
      exact Or.inr (by omega)
    · exact Or.inl (hnext.2 p hp (by omega))
  · obtain ⟨e1, e2, hinv⟩ := bridge_at NonPreInv (fun s => s.time ≤ INT_MAX)
      priorityStep_nonPreInv priorityStep32_eq k (schedInit ps) (nonPreInv_init ps hfresh) hok
    rw [e2, e1]
    refine ⟨priorityStep_writeOnce _ hinv, fun p hp => ?_⟩
    obtain ⟨h1, h2, h3⟩ := (priorityStep_nonPreInv _ hinv).2.2 p hp
    rcases h3 with h3 | h3
    · exact Or.inl h3
    · exact Or.inr (by omega)
  · obtain ⟨e1, e2, hinv⟩ := bridge_at
      (fun s => (RRInv s ∧ RRUnset s) ∧ ∀ p ∈ s.processes, p.remainingTime ≤ INT_MAX)
      (fun s => s.time ≤ INT_MAX)
      (fun s hs => ⟨(rrStep_unset quantum hq s hs.1).1, rrStep_remaining_le quantum hq s hs.2⟩)
      (fun s hs h => rrStep32_eq quantum hq s hs.1.1 hs.2 h) k (rrInit ps)
      ⟨⟨rrInv_init ps hrr, rrUnset_init ps hrr⟩,
        fun p hp => by rw [(hfresh p hp).2.2.2]; exact hint p hp⟩ hok
    rw [e2, e1]
    have hnext := (rrStep_unset quantum hq _ hinv.1).1
    refine ⟨(rrStep_unset quantum hq _ hinv.1).2, fun p hp => ?_⟩
    obtain ⟨i, hi⟩ := List.mem_iff_getElem?.mp hp
    by_cases hm : i ∈ (rrStep quantum (iterate (rrStep quantum) k (rrInit ps))).readyQueue
    · exact Or.inl (hnext.2 i p hi hm)
    · have := ((hnext.1.2.2.2 i p hi).2 hm).2
      exact Or.inr (by omega)

/-- C11 as amended, on P1(0,8), P2(1,4), P3(2,9), P4(3,5) with quantum 3, at
the second iteration of `sjf` on 32-bit integers, which completes P2: the
exact clock stays at 12 or below, the completion time of P2 goes from 0 to 12
and P1 keeps its 8. -/
theorem completion_written_once_in_range_witness :
    (∀ p ∈ exampleFour, Fresh p) ∧
    (∀ j, j ≤ 1 + 1 → (iterate sjfStep j (schedInit exampleFour)).time ≤ INT_MAX) ∧
    (iterate sjfStep32 1 (schedInit exampleFour)).processes.map
      (fun p => p.completionTime) = [8, 0, 0, 0] ∧
    (sjfStep32 (iterate sjfStep32 1 (schedInit exampleFour))).processes.map
      (fun p => p.completionTime) = [8, 12, 0, 0] ∧
    WriteOnce (iterate sjfStep32 1 (schedInit exampleFour)).processes
      (sjfStep32 (iterate sjfStep32 1 (schedInit exampleFour))).processes :=
  ⟨by decide, by decide, by decide, by decide,
    ((completion_written_once_in_range exampleFour 3 (by decide) (by decide)
      (by decide)).2.2.1 1 (by decide)).1⟩

/-! ## The execution intervals: the machine loops -/

theorem sjf32_eq_sjf (ps : List Process) (hfresh : ∀ p ∈ ps, Fresh p) (k : Nat)
    (hok : ∀ j, j ≤ k → (iterate sjfStep j (schedInit ps)).time ≤ INT_MAX) :
    sjf32 k ps = sjf k ps := by
  unfold sjf32 sjf
  rw [whileLoop_bridge NonPreInv (fun s => s.time ≤ INT_MAX) sjfStep_nonPreInv sjfStep32_eq
    k (schedInit ps) (nonPreInv_init ps hfresh) hok]

theorem priorityScheduling32_eq (ps : List Process) (hfresh : ∀ p ∈ ps, Fresh p) (k : Nat)
    (hok : ∀ j, j ≤ k → (iterate priorityStep j (schedInit ps)).time ≤ INT_MAX) :
    priorityScheduling32 k ps = priorityScheduling k ps := by
  unfold priorityScheduling32 priorityScheduling
  rw [whileLoop_bridge NonPreInv (fun s => s.time ≤ INT_MAX) priorityStep_nonPreInv
    priorityStep32_eq k (schedInit ps) (nonPreInv_init ps hfresh) hok]

theorem sjf32_unique (ps : List Process) (f1 f2 : Nat) (r1 r2 : List Process)
    (h1 : sjf32 f1 ps = some r1) (h2 : sjf32 f2 ps = some r2) : r1 = r2 := by
  obtain ⟨s1, hs1, rfl⟩ : ∃ s, whileLoop schedDone sjfStep32 f1 (schedInit ps) = some s ∧
      s.processes = r1 := by simpa [sjf32] using h1
  obtain ⟨s2, hs2, rfl⟩ : ∃ s, whileLoop schedDone sjfStep32 f2 (schedInit ps) = some s ∧
      s.processes = r2 := by simpa [sjf32] using h2
  rw [whileLoop_unique f1 f2 _ s1 s2 hs1 hs2]

theorem priorityScheduling32_unique (ps : List Process) (f1 f2 : Nat) (r1 r2 : List Process)
    (h1 : priorityScheduling32 f1 ps = some r1) (h2 : priorityScheduling32 f2 ps = some r2) :
    r1 = r2 := by
  obtain ⟨s1, hs1, rfl⟩ : ∃ s, whileLoop schedDone priorityStep32 f1 (schedInit ps) = some s ∧
      s.processes = r1 := by simpa [priorityScheduling32] using h1
  obtain ⟨s2, hs2, rfl⟩ : ∃ s, whileLoop schedDone priorityStep32 f2 (schedInit ps) = some s ∧
      s.processes = r2 := by simpa [priorityScheduling32] using h2
  rw [whileLoop_unique f1 f2 _ s1 s2 hs1 hs2]

/-- C17, refuted as stated: on the fresh valid input of one process with
arrival time 2147483647 = `INT_MAX` and burst time 1, `fcfs` on 32-bit
integers writes the wrapped completion time -2147483648, so that
`completionTime - burstTime = -2147483649` lies before the arrival time. -/
theorem execution_interval_wraps :
    (∀ p ∈ arrivesLast, Fresh p) ∧
    (fcfs32 arrivesLast).map
        (fun p => (p.arrivalTime, p.completionTime - p.burstTime, p.completionTime)) =
      [(2147483647, -2147483649, -2147483648)] ∧
    ∃ p ∈ fcfs32 arrivesLast, ¬ (p.arrivalTime ≤ p.completionTime - p.burstTime) := by
  decide

/-- C17, amended: on fresh valid input, for `fcfs`, `sjf` and
`priorityScheduling` on 32-bit integers, provided no clock addition of the
run overflows, every record of the result has
`completionTime - burstTime ≥ arrivalTime`, and of any two records at
different positions one has its completion time no later than the other's
`completionTime - burstTime`.  The proviso is, for `fcfs`, that every
completion time it computes on unbounded integers is at most `INT_MAX`; for
`sjf` and `priorityScheduling`, that the run ends within `k` iterations
during which the clock computed on unbounded integers stays at most
`INT_MAX`; the result is then the result for every fuel. -/
theorem execution_intervals_disjoint_in_range (ps : List Process)
    (hfresh : ∀ p ∈ ps, Fresh p) :
    ((∀ p ∈ fcfs ps, p.completionTime ≤ INT_MAX) →
      (∀ p ∈ fcfs32 ps, p.arrivalTime ≤ p.completionTime - p.burstTime) ∧
      ∀ (i j : Nat) (p q : Process), i ≠ j → (fcfs32 ps)[i]? = some p →
        (fcfs32 ps)[j]? = some q →
        (p.completionTime ≤ q.completionTime - q.burstTime ∨
          q.completionTime ≤ p.completionTime - p.burstTime)) ∧
    (∀ (k : Nat) (r : List Process),
      (∀ j, j ≤ k → (iterate sjfStep j (schedInit ps)).time ≤ INT_MAX) →
      sjf32 k ps = some r →
      (∀ (fuel : Nat) (r1 : List Process), sjf32 fuel ps = some r1 → r1 = r) ∧
      (∀ p ∈ r, p.arrivalTime ≤ p.completionTime - p.burstTime) ∧
      ∀ (i j : Nat) (p q : Process), i ≠ j → r[i]? = some p → r[j]? = some q →
        (p.completionTime ≤ q.completionTime - q.burstTime ∨
          q.completionTime ≤ p.completionTime - p.burstTime)) ∧
    (∀ (k : Nat) (r : List Process),
      (∀ j, j ≤ k → (iterate priorityStep j (schedInit ps)).time ≤ INT_MAX) →
      priorityScheduling32 k ps = some r →
      (∀ (fuel : Nat) (r1 : List Process), priorityScheduling32 fuel ps = some r1 → r1 = r) ∧
      (∀ p ∈ r, p.arrivalTime ≤ p.completionTime - p.burstTime) ∧
      ∀ (i j : Nat) (p q : Process), i ≠ j → r[i]? = some p → r[j]? = some q →
        (p.completionTime ≤ q.completionTime - q.burstTime ∨
          q.completionTime ≤ p.completionTime - p.burstTime)) := by
  refine ⟨fun hok => ?_, fun k r hok h => ?_, fun k r hok h => ?_⟩
  · have he : fcfs32 ps = fcfs ps :=
      fcfsLoop32_eq ps 0 (le_refl _) (fun p hp => (hfresh p hp).1) hok
    rw [he]
    exact fcfs_apart ps (fun p hp => le_of_lt (hfresh p hp).1)
  · refine ⟨fun fuel r1 h1 => sjf32_unique ps fuel k r1 r h1 h, ?_⟩
    rw [sjf32_eq_sjf ps hfresh k hok] at h
    exact sjf_apart ps hfresh k r h
  · refine ⟨fun fuel r1 h1 => priorityScheduling32_unique ps fuel k r1 r h1 h, ?_⟩
    rw [priorityScheduling32_eq ps hfresh k hok] at h
    exact priority_apart ps hfresh k r h

/-- C17 as amended, on P1(0,8), P2(1,4), P3(2,9), P4(3,5), where `sjf` on
32-bit integers ends after four iterations with the clock at 26: the
intervals are [0,8), [8,12), [17,26), [12,17). -/
theorem execution_intervals_disjoint_in_range_witness :
    (∀ j, j ≤ 4 → (iterate sjfStep j (schedInit exampleFour)).time ≤ INT_MAX) ∧
    (sjf32 4 exampleFour).map
        (fun r => r.map (fun p => (p.completionTime - p.burstTime, p.completionTime))) =
      some [(0, 8), (8, 12), (17, 26), (12, 17)] ∧
    ∀ r : List Process, sjf32 4 exampleFour = some r →
      (∀ (fuel : Nat) (r1 : List Process), sjf32 fuel exampleFour = some r1 → r1 = r) ∧
      (∀ p ∈ r, p.arrivalTime ≤ p.completionTime - p.burstTime) ∧
      ∀ (i j : Nat) (p q : Process), i ≠ j → r[i]? = some p → r[j]? = some q →
        (p.completionTime ≤ q.completionTime - q.burstTime ∨
          q.completionTime ≤ p.completionTime - p.burstTime) :=
  ⟨by decide, by decide,
    fun r => (execution_intervals_disjoint_in_range exampleFour (by decide)).2.1 4 r
      (by decide)⟩

/-! ## The span of calculateMetrics after fcfs: the machine computation -/

theorem metricsLoop32_fst (ps : List Process) (tt tw tb : Int) :
    (metricsLoop32 ps tt tw tb).1 = ps.map metricsOf32 := by
  induction ps generalizing tt tw tb with
  | nil => rfl
  | cons a as ih => simp [metricsLoop32, ih]

/-- The running total of the burst times does not wrap while the exact total
is at most `INT_MAX`. -/
theorem metricsLoop32_totalBurst (ps : List Process) (tt tw tb : Int)
    (hv : ∀ p ∈ ps, 0 < p.burstTime) (htb : 0 ≤ tb) (hok : tb + totalBurst ps ≤ INT_MAX) :
    (metricsLoop32 ps tt tw tb).2.2.2 = tb + totalBurst ps := by
  induction ps generalizing tt tw tb with
  | nil => simp [metricsLoop32, totalBurst]
  | cons a as ih =>
    have ha := hv a (List.mem_cons_self _ _)
    have has : ∀ p ∈ as, 0 < p.burstTime := fun p hp => hv p (List.mem_cons_of_mem _ hp)
    have hnn := totalBurst_nonneg as has
    have e : totalBurst (a :: as) = a.burstTime + totalBurst as := by simp [totalBurst]
    rw [e] at hok ⊢
    have hw : wrap32 (tb + a.burstTime) = tb + a.burstTime :=
      wrap32_eq _ (by unfold INT_MIN; omega) (by omega)
    simp only [metricsLoop32, metricsOf32, hw]
    rw [ih _ _ _ has (by omega) (by omega)]
    omega

theorem calculateMetrics32_cons (a : Process) (as : List Process) :
    calculateMetrics32 (a :: as) = some
      { processes := (a :: as).map metricsOf32
        totalTurnaroundTime := (metricsLoop32 (a :: as) 0 0 0).2.1
        totalWaitingTime := (metricsLoop32 (a :: as) 0 0 0).2.2.1
        totalBurstTime := (metricsLoop32 (a :: as) 0 0 0).2.2.2
        totalTimeSpan :=
          wrap32 (((a :: as).getLast (List.cons_ne_nil a as)).completionTime
            - a.arrivalTime) } := by
  have h1 : ((a :: as).map metricsOf32).getLast? =
      some (metricsOf32 ((a :: as).getLast (List.cons_ne_nil a as))) := by
    rw [List.getLast?_eq_getLast _ (by simp), List.getLast_map]
  have h2 : ((a :: as).map metricsOf32).head? = some (metricsOf32 a) := by simp
  unfold calculateMetrics32
  simp only [metricsLoop32_fst]
  rw [h1, h2]
  simp [metricsOf32]

theorem fcfsLoop_burst_pos (ps : List Process) (t : Int) (hv : ∀ p ∈ ps, 0 < p.burstTime) :
    ∀ q ∈ fcfsLoop ps t, 0 < q.burstTime := by
  induction ps generalizing t with
  | nil => intro q hq; simp [fcfsLoop] at hq
  | cons a as ih =>
    intro q hq
    simp only [fcfsLoop, List.mem_cons] at hq
    rcases hq with hq | hq
    · subst hq
      exact hv a (List.mem_cons_self _ _)
    · exact ih _ (fun p hp => hv p (List.mem_cons_of_mem _ hp)) q hq

/-- C18, refuted as stated: on the fresh valid input P1(arrival 5, burst
2147483647), P2(arrival 0, burst 1), `fcfs` on 32-bit integers wraps the clock
at P1 (completion time -2147483644) and completes P2 at time 1, so the span
`calculateMetrics` computes is `1 - 5 = -4`: not positive, and the total of
the burst times has wrapped to -2147483648. -/
theorem fcfs_span_wraps :
    (∀ p ∈ longFirst, Fresh p) ∧
    (fcfs32 longFirst).map (fun p => p.completionTime) = [-2147483644, 1] ∧
    (calculateMetrics32 (fcfs32 longFirst)).map
        (fun m => (m.totalBurstTime, m.totalTimeSpan)) = some (-2147483648, -4) ∧
    ∃ m, calculateMetrics32 (fcfs32 longFirst) = some m ∧ ¬ (0 < m.totalTimeSpan) ∧
      ¬ (totalBurst longFirst ≤ m.totalTimeSpan) := by
  refine ⟨by decide, by decide, by decide, ?_⟩
  cases h : calculateMetrics32 (fcfs32 longFirst) with
  | none => revert h; decide
  | some m =>
    have h1 : (calculateMetrics32 (fcfs32 longFirst)).map (fun m => m.totalTimeSpan) =
        some (-4) := by decide
    rw [h] at h1
    simp only [Option.map_some', Option.some.injEq] at h1
    refine ⟨m, rfl, ?_, ?_⟩
    · rw [h1]; decide
    · rw [h1]; decide

/-- C18, amended: on every non-empty list with positive burst times and
non-negative arrival times, in any order, for which every completion time
`fcfs` computes on unbounded integers is at most `INT_MAX` (no clock addition
overflows), `calculateMetrics` after `fcfs`, both on 32-bit integers,
computes a total burst time equal to the sum of the burst times and a total
time span at least as large, hence positive, so the exact ratio
total burst / span times 100 is at most 100. -/
theorem fcfs_span_covers_bursts_in_range (ps : List Process) (hne : ps ≠ [])
    (hvalid : ∀ p ∈ ps, 0 < p.burstTime ∧ 0 ≤ p.arrivalTime)
    (hok : ∀ p ∈ fcfs ps, p.completionTime ≤ INT_MAX) :
    ∃ m, calculateMetrics32 (fcfs32 ps) = some m ∧ m.totalBurstTime = totalBurst ps ∧
      totalBurst ps ≤ m.totalTimeSpan ∧ 0 < m.totalTimeSpan ∧
      ((m.totalBurstTime : ℚ) / (m.totalTimeSpan : ℚ)) * 100 ≤ 100 := by
  have hv : ∀ p ∈ ps, 0 < p.burstTime := fun p hp => (hvalid p hp).1
  have he : fcfs32 ps = fcfs ps := fcfsLoop32_eq ps 0 (le_refl _) hv hok
  obtain ⟨first, hfirst⟩ : ∃ a, ps.head? = some a := by
    cases ps with
    | nil => exact absurd rfl hne
    | cons a as => exact ⟨a, rfl⟩
  have hfa : 0 ≤ first.arrivalTime := by
    rw [List.head?_eq_getElem?] at hfirst
    exact (hvalid first (List.getElem?_mem hfirst)).2
  obtain ⟨x0, hx0, hrel⟩ := forall₂_head? (fcfsLoop_frame ps 0) first hfirst
  replace hx0 : (fcfs ps).head? = some x0 := hx0
  have hxa : x0.arrivalTime = first.arrivalTime := by
    unfold OnlyCompletion at hrel
    have := congrArg Process.arrivalTime hrel
    exact this
  have hpos := totalBurst_pos ps first hfirst hv
  have htb : totalBurst (fcfs ps) = totalBurst ps := totalBurst_fcfsLoop ps 0
  have hbp : ∀ q ∈ fcfs ps, 0 < q.burstTime := fcfsLoop_burst_pos ps 0 hv
  rw [he]
  cases hr : fcfs ps with
  | nil => rw [hr] at hx0; simp at hx0
  | cons x xs =>
    rw [hr] at hx0 htb hbp
    simp only [List.head?_cons, Option.some.injEq] at hx0
    subst hx0
    have hlast : (fcfs ps).getLast? = some ((x :: xs).getLast (List.cons_ne_nil x xs)) := by
      rw [hr]; exact List.getLast?_eq_getLast _ _
    have hmem : (x :: xs).getLast (List.cons_ne_nil x xs) ∈ fcfs ps := by
      rw [hr]; exact List.getLast_mem _
    have h1 := (fcfsLoop_getLast ps 0 _ hlast).2 first hfirst
    have h2 := hok _ hmem
    have hspan : wrap32 (((x :: xs).getLast (List.cons_ne_nil x xs)).completionTime
        - x.arrivalTime) =
        ((x :: xs).getLast (List.cons_ne_nil x xs)).completionTime - x.arrivalTime :=
      wrap32_eq _ (by unfold INT_MIN; omega) (by omega)
    have hburst : (metricsLoop32 (x :: xs) 0 0 0).2.2.2 = totalBurst ps := by
      rw [metricsLoop32_totalBurst (x :: xs) 0 0 0 hbp (le_refl _) (by omega), htb]
      omega
    refine ⟨_, calculateMetrics32_cons x xs, hburst, ?_, ?_, ?_⟩
    · simp only [hspan]; omega
    · simp only [hspan]; omega
    · simp only [hspan, hburst]
      have h4 : totalBurst ps ≤
          ((x :: xs).getLast (List.cons_ne_nil x xs)).completionTime - x.arrivalTime := by
        omega
      have h6 : (0 : ℚ) <
          ((((x :: xs).getLast (List.cons_ne_nil x xs)).completionTime - x.arrivalTime : Int) :
            ℚ) := by
        exact_mod_cast (by omega : (0 : Int) <
          ((x :: xs).getLast (List.cons_ne_nil x xs)).completionTime - x.arrivalTime)
      have h7 : ((totalBurst ps : Int) : ℚ) ≤
          ((((x :: xs).getLast (List.cons_ne_nil x xs)).completionTime - x.arrivalTime : Int) :
            ℚ) := by
        exact_mod_cast h4
      have h8 := (div_le_one h6).mpr h7
      linarith

/-- C18 as amended, on P1(4,5), P2(0,3), P3(1,2), a list given out of arrival
order whose completion times 9, 12, 14 are in range. -/
theorem fcfs_span_covers_bursts_in_range_witness :
    (fcfs32 [mkProcess 1 4 5 0, mkProcess 2 0 3 0, mkProcess 3 1 2 0]).map
      (fun p => p.completionTime) = [9, 12, 14] ∧
    ∃ m, calculateMetrics32 (fcfs32 [mkProcess 1 4 5 0, mkProcess 2 0 3 0, mkProcess 3 1 2 0]) =
        some m ∧
      m.totalBurstTime = totalBurst [mkProcess 1 4 5 0, mkProcess 2 0 3 0, mkProcess 3 1 2 0] ∧
      totalBurst [mkProcess 1 4 5 0, mkProcess 2 0 3 0, mkProcess 3 1 2 0] ≤ m.totalTimeSpan ∧
      0 < m.totalTimeSpan ∧
      ((m.totalBurstTime : ℚ) / (m.totalTimeSpan : ℚ)) * 100 ≤ 100 :=
  ⟨by decide,
    fcfs_span_covers_bursts_in_range [mkProcess 1 4 5 0, mkProcess 2 0 3 0, mkProcess 3 1 2 0]
      (by decide) (by decide) (by decide)⟩

end CPUScheduling
